import Mathlib

/-!
Verification of the SecureShards threshold secret-splitting engine
(`helpers/secureshards`, the ~143-line core module).

The JavaScript core is shallowly embedded as follows.

* JS numbers in the reachable states of the engine are integers, except for
  `NaN` (arising from arithmetic on `undefined`).  A JS number is modelled as
  `JsNum := Option Int`, with `none` playing `NaN`; JS `%` on integers is the
  truncated remainder `Int.tmod`.
* JS strings are modelled as `List Char` (all strings handled by the engine
  are sequences of code points below 0xD800, where UTF-16 units and code
  points coincide; `TextEncoder`/`TextDecoder` round ASCII through UTF-8
  bytes unchanged and are absorbed into the crypto-platform abstraction).
* JS exceptions are modelled with `Except JsErr`; `Promise.all` over async
  calls is sequential `mapM` (all claims considered are insensitive to which
  of several simultaneous rejections wins).
* The platform primitives (`crypto.subtle` AES-GCM, SHA-256 key derivation,
  Node `Buffer` base64) are not part of the repository; they are abstracted
  as a `CryptoPlatform` record.  Node's `Buffer.from(s, 'base64')` never
  throws (it decodes leniently, skipping invalid characters), so `b64decode`
  is a total function.  Randomness (`Math.random` coefficient draws and
  `getRandomValues` nonces) is injected as explicit arguments.
-/

namespace SecureShards

/-- Error kinds.  The code itself only ever throws
`new Error('Inverse does not exist')` (`noInverse`); `authFailure` is the
platform's AEAD verification rejection, `typeError` a JS `TypeError`
(property access on `undefined`, or `crypto.subtle.decrypt` invoked with an
`undefined` buffer).  `malformedShard` is the error kind named by the spec;
no code path produces it, it is included so that statements about it can be
expressed. -/
inductive JsErr
  | noInverse
  | authFailure
  | typeError
  | malformedShard
  deriving DecidableEq, Repr

/-- `const prime = 211;` -/
def prime : Int := 211

/-- `const add = (a, b) => (a + b) % prime;` (JS `%` = truncated remainder). -/
def add (a b : Int) : Int := (a + b).tmod prime

/-- `const subtract = (a, b) => ((a - b) % prime + prime) % prime;` -/
def subtract (a b : Int) : Int := ((a - b).tmod prime + prime).tmod prime

/-- `const multiply = (a, b) => (a * b) % prime;` -/
def multiply (a b : Int) : Int := (a * b).tmod prime

/-- The `while (m > 0)` loop of `inversemod`, with the loop variables as
arguments.  `Math.floor(a / m)` for `m > 0` is floor division, which for a
positive divisor coincides with Euclidean division `a / m` on `Int`.
Returns the final `(a, x1)`. -/
def egcdLoop (a m x1 x2 y1 y2 : Int) : Int × Int :=
  if 0 < m then
    egcdLoop m (a - a / m * m) x2 (subtract x1 (multiply (a / m) x2)) y2
      (subtract y1 (multiply (a / m) y2))
  else (a, x1)
termination_by m.toNat
decreasing_by
  have hq : a - a / m * m = a % m := by rw [Int.emod_def]; ring
  have h1 : 0 ≤ a % m := Int.emod_nonneg a (by omega)
  have h2 : a % m < m := Int.emod_lt_of_pos a (by assumption)
  simp only [hq]
  omega

/-- `const inversemod = (a, m) => {...}`: normalise `a` into `[0, m)` via
`a = ((a % m) + m) % m`, run the extended Euclidean loop from
`[x1, x2, y1, y2] = [1, 0, 0, 1]`, throw `'Inverse does not exist'` unless
the final `a` is 1, else return the final `x1`. -/
def inversemod (a m : Int) : Except JsErr Int :=
  if (egcdLoop ((a.tmod m + m).tmod m) m 1 0 0 1).1 ≠ 1 then .error .noInverse
  else .ok (egcdLoop ((a.tmod m + m).tmod m) m 1 0 0 1).2

/-- `const divide = (a, b) => multiply(a, inversemod(b, prime));` -/
def divide (a b : Int) : Except JsErr Int :=
  (inversemod b prime).map (fun i => multiply a i)

/-- `evaluatePolynomial`: Horner evaluation, iterating the coefficients from
the highest index down to 0; the downward `for` loop is exactly a `foldr`. -/
def evaluatePolynomial (coefficients : List Int) (x : Int) : Int :=
  coefficients.foldr (fun c result => add (multiply result x) c) 0

/-- `generatePolynomial(degree, intercept)`: `[intercept]` followed by
`degree` random draws.  The draws `Math.floor(Math.random() * prime)` are
injected as `rand 1, …, rand degree`.  (JS `degree = threshold - 1` can be
`-1` for `threshold = 0`, in which case the loop body never runs, matching
truncated `Nat` subtraction at every call site.) -/
def generatePolynomial (degree : Nat) (intercept : Int) (rand : Nat → Int) : List Int :=
  intercept :: (List.range degree).map (fun i => rand (i + 1))

/-- `split(secret, numShares, threshold)`: shares `[i, P(i)]` for
`i = 1..numShares`, all from one polynomial. -/
def split (secret : Int) (numShares threshold : Nat) (rand : Nat → Int) : List (List Int) :=
  let polynomial := generatePolynomial (threshold - 1) secret rand
  (List.range numShares).map (fun k =>
    [((k + 1 : Nat) : Int), evaluatePolynomial polynomial ((k + 1 : Nat) : Int)])

/-- A JS number: `none` models `NaN` (also the value of reading a missing
array element as an arithmetic operand). -/
abbrev JsNum := Option Int

/-- `add` on JS numbers (`NaN` absorbs). -/
def jsAdd : JsNum → JsNum → JsNum
  | some a, some b => some (add a b)
  | _, _ => none

/-- `subtract` on JS numbers (`NaN` absorbs). -/
def jsSub : JsNum → JsNum → JsNum
  | some a, some b => some (subtract a b)
  | _, _ => none

/-- `multiply` on JS numbers (`NaN` absorbs). -/
def jsMul : JsNum → JsNum → JsNum
  | some a, some b => some (multiply a b)
  | _, _ => none

/-- `inversemod(a, prime)` on a JS number.  For `a = NaN` the loop's first
iteration sets `m` to `NaN`, `NaN > 0` is false, and the final `a` is
`prime = 211 ≠ 1`, so the call throws `'Inverse does not exist'`. -/
def jsInversemod : JsNum → Except JsErr Int
  | some a => inversemod a prime
  | none => .error .noInverse

/-- `divide` on JS numbers. -/
def jsDivide (a b : JsNum) : Except JsErr JsNum :=
  (jsInversemod b).map (fun i => jsMul a (some i))

/-- One element of the `shares` array handed to `interpolate`:
either an array of JS numbers, or `undefined` (`none`) when it was read out
of range from a bundle. -/
abbrev JsShare := Option (List JsNum)

/-- Reading `l[k]` from a JS array of numbers as an arithmetic operand:
a missing element is `undefined`, which behaves as `NaN`. -/
def jsIndex (l : List JsNum) (k : Nat) : JsNum := (l.get? k).join

/-- The body of the inner `for (j ...)` loop of `interpolate`:
`if (i !== j) term = multiply(term, divide(subtract(x, shares[j][0]), subtract(shares[i][0], shares[j][0])))`.
`si` is the already-read `shares[i]`; reading `shares[j][0]` when `shares[j]`
is `undefined` throws a `TypeError`. -/
def interpTermStep (x : JsNum) (shares : List JsShare) (i : Nat) (si : List JsNum)
    (term : JsNum) (j : Nat) : Except JsErr JsNum :=
  if i ≠ j then
    match shares.getD j none with
    | none => .error .typeError
    | some sj => do
      let d ← jsDivide (jsSub x (jsIndex sj 0)) (jsSub (jsIndex si 0) (jsIndex sj 0))
      pure (jsMul term d)
  else pure term

/-- The body of the outer `for (i ...)` loop of `interpolate`:
`term = shares[i][1]` (a `TypeError` if `shares[i]` is `undefined`), the
inner loop, then `result = add(result, term)`. -/
def interpOuterStep (x : JsNum) (shares : List JsShare) (result : JsNum) (i : Nat) :
    Except JsErr JsNum :=
  match shares.getD i none with
  | none => .error .typeError
  | some si => do
    let term ← (List.range shares.length).foldlM (interpTermStep x shares i si) (jsIndex si 1)
    pure (jsAdd result term)

/-- `interpolate(shares, x)`: the nested indexed loops, `result` starting
at 0. -/
def interpolate (shares : List JsShare) (x : JsNum) : Except JsErr JsNum :=
  (List.range shares.length).foldlM (interpOuterStep x shares) (some 0)

/-- `reconstruct(shares)`: interpolate at `x = 0`. -/
def reconstruct (shares : List JsShare) : Except JsErr JsNum :=
  interpolate shares (some 0)

/-- `stringToAsciiArray`: one `charCodeAt` per character. -/
def stringToAsciiArray (s : List Char) : List Int :=
  s.map (fun c => (c.toNat : Int))

/-- `String.fromCharCode(v)`: `ToUint16(NaN) = 0`; an integer is reduced
modulo 2^16.  (For the code points reachable here — below 211 — the result
is a valid scalar value, so `Char.ofNat` is faithful.) -/
def jsFromCharCode : JsNum → Char
  | none => Char.ofNat 0
  | some v => Char.ofNat (v % 65536).toNat

/-- `asciiArrayToString`. -/
def asciiArrayToString (arr : List JsNum) : List Char :=
  arr.map jsFromCharCode

/-- JS `Array.prototype.join(sep)` for a single-character separator. -/
def jsJoin (sep : Char) : List (List Char) → List Char
  | [] => []
  | [x] => x
  | x :: xs => x ++ sep :: jsJoin sep xs

/-- JS `String.prototype.split(sep)` for a single-character separator:
`"".split(sep) = [""]`, and every occurrence of `sep` splits. -/
def jsSplit (sep : Char) : List Char → List (List Char)
  | [] => [[]]
  | c :: rest =>
    if c = sep then [] :: jsSplit sep rest
    else
      match jsSplit sep rest with
      | r :: rs => (c :: r) :: rs
      | [] => [[c]]

/-- Decimal digits of a natural number, most significant first
(JS `ToString` of a non-negative integer). -/
def natToDigits (n : Nat) : List Char :=
  if n = 0 then ['0'] else (Nat.digits 10 n).reverse.map (fun d => Char.ofNat (d + 48))

/-- JS `ToString` of an integer-valued number. -/
def numToString (n : Int) : List Char :=
  if n < 0 then '-' :: natToDigits n.natAbs else natToDigits n.toNat

/-- Value of a string of decimal digits, most significant first. -/
def digitsToNat (s : List Char) : Nat :=
  s.foldl (fun acc c => 10 * acc + (c.toNat - 48)) 0

/-- JS `Number(s)` restricted to the string shapes the engine can meet:
`Number('') = 0`, optionally-negated decimal integers parse exactly, and
everything else is collapsed to `NaN`.  (Fractional/exponent/hex syntaxes
never arise from `serializeBundle` output; no claim depends on their
values, only on the structure of the computation around them.) -/
def jsNumberOfChars (s : List Char) : JsNum :=
  if s = [] then some 0
  else if s.all Char.isDigit then some (digitsToNat s)
  else
    match s with
    | c :: rest =>
      if c = '-' ∧ rest ≠ [] ∧ rest.all Char.isDigit then some (-(digitsToNat rest : Int))
      else none
    | [] => none

/-- The platform crypto primitives used by the shard codec, abstracted.
`aeadDec` returning `none` models the WebCrypto AEAD verification rejection
(wrong password or tampered ciphertext).  `b64decode` is total because
Node's lenient base64 decoder never throws. -/
structure CryptoPlatform where
  b64encode : List Char → List Char
  b64decode : List Char → List Char
  aeadEnc : List Char → List Char → List Char → List Char
  aeadDec : List Char → List Char → List Char → Option (List Char)

/-- The properties of a real platform that the round-trip claims rely on:
AEAD decryption inverts encryption under the same password and nonce, base64
decoding inverts encoding, and base64 output never contains the `':'`
token separator. -/
def GoodPlatform (P : CryptoPlatform) : Prop :=
  (∀ pw iv pt, P.aeadDec pw iv (P.aeadEnc pw iv pt) = some pt) ∧
  (∀ b, P.b64decode (P.b64encode b) = b) ∧
  (∀ b, ':' ∉ P.b64encode b)

/-- `share.map(s => s.join(' ')).join(',')` — the plaintext serialisation of
one share bundle. -/
def serializeBundle (share : List (List Int)) : List Char :=
  jsJoin ',' (share.map (fun s => jsJoin ' ' (s.map numToString)))

/-- `encryptShare(share, password)`, with the random 12-byte nonce `iv`
injected: `base64(iv) + ':' + base64(AES-GCM-encrypt(data))`. -/
def encryptShare (P : CryptoPlatform) (iv : List Char) (share : List (List Int))
    (password : List Char) : List Char :=
  P.b64encode iv ++ ':' :: P.b64encode (P.aeadEnc password iv (serializeBundle share))

/-- `decodedData.split(',').map(part => part.split(' ').map(Number))`. -/
def parseBundle (s : List Char) : List (List JsNum) :=
  (jsSplit ',' s).map (fun part => (jsSplit ' ' part).map jsNumberOfChars)

/-- `decryptShare(encryptedShare, password)`:
`const [iv, encryptedData] = encryptedShare.split(':').map(b64decode)`.
`split` always yields at least one element, so `iv` is always defined; when
the token has no colon, `encryptedData` is `undefined` and
`crypto.subtle.decrypt` throws a `TypeError`.  No base64 or format
validation happens anywhere. -/
def decryptShare (P : CryptoPlatform) (encryptedShare password : List Char) :
    Except JsErr (List (List JsNum)) :=
  match ((jsSplit ':' encryptedShare).map P.b64decode).get? 1 with
  | some encryptedData =>
    match P.aeadDec password (((jsSplit ':' encryptedShare).map P.b64decode).getD 0 [])
        encryptedData with
    | some decodedData => .ok (parseBundle decodedData)
    | none => .error .authFailure
  | none => .error .typeError

/-- `splitString(secret, numShares, threshold, password)` with the
coefficient randomness (`rand k` is the draw stream for character `k`) and
the per-shard nonces `ivs` injected.  The `forEach` transposition pushes the
`index`-th share of every character onto `combinedShares[index]`. -/
def splitString (P : CryptoPlatform) (rand : Nat → Nat → Int) (ivs : Nat → List Char)
    (secret : List Char) (numShares threshold : Nat) (password : List Char) :
    List (List Char) :=
  ((stringToAsciiArray secret).enum.foldl
    (fun acc kv =>
      List.zipWith (fun bucket share => bucket ++ [share]) acc
        (split kv.2 numShares threshold (rand kv.1)))
    (List.replicate numShares [])).enum.map
    (fun ip => encryptShare P (ivs ip.1) ip.2 password)

/-- The second phase of `reconstructString`, operating on the decrypted
bundles: `decryptedShares[0].length` throws a `TypeError` on an empty array;
otherwise one `reconstruct` per character position of the first bundle, over
`decryptedShares.map(share => share[index])` (out-of-range reads give
`undefined`). -/
def reconstructBundles (decryptedShares : List (List (List JsNum))) :
    Except JsErr (List Char) :=
  match decryptedShares.get? 0 with
  | none => .error .typeError
  | some first => do
    let asciiValues ← (List.range first.length).mapM (fun index =>
      reconstruct (decryptedShares.map (fun share => share.get? index)))
    pure (asciiArrayToString asciiValues)

/-- `reconstructString(encryptedShares, password)`: decrypt every token,
then interpolate per character position. -/
def reconstructString (P : CryptoPlatform) (encryptedShares : List (List Char))
    (password : List Char) : Except JsErr (List Char) := do
  let decryptedShares ← encryptedShares.mapM (fun share => decryptShare P share password)
  reconstructBundles decryptedShares

/-- A concrete platform for witnesses and counterexamples: identity AEAD and
a marker-pair "base64" that never emits `':'` (each input character becomes
a marker character plus a payload character). -/
def toyEncode (b : List Char) : List Char :=
  b.flatMap (fun c => if c = ':' then ['C', 'x'] else ['D', c])

/-- Inverse of `toyEncode`: read marker-payload pairs. -/
def toyDecode : List Char → List Char
  | m :: c :: rest => (if m = 'C' then ':' else c) :: toyDecode rest
  | _ => []

/-- The concrete platform. -/
def toyPlatform : CryptoPlatform where
  b64encode := toyEncode
  b64decode := toyDecode
  aeadEnc := fun _ _ pt => pt
  aeadDec := fun _ _ ct => some ct

/-! ### Verification vocabulary -/

instance fact211 : Fact (Nat.Prime 211) := ⟨by norm_num⟩

/-- The field the engine computes in. -/
abbrev F : Type := ZMod 211

/-- A well-formed share `[x, y]` (a 2-element JS array of plain numbers),
as an element of `interpolate`'s input. -/
def properPair (p : Int × Int) : JsShare := some [some p.1, some p.2]

/-- One Lagrange factor `(x - x_j) / (x_i - x_j)` over `F`. -/
def lagWeight (x xi xj : F) : F := (x - xj) * (xi - xj)⁻¹

/-- The polynomial with the given coefficient list
(index 0 = constant term).  Proof-side vocabulary only (Mathlib polynomials
are noncomputable); every executable definition of the embedding is
computable. -/
noncomputable def ofCoeffs : List F → Polynomial F
  | [] => 0
  | c :: cs => Polynomial.C c + Polynomial.X * ofCoeffs cs

/-- The term contributed by share `i` to the Lagrange sum at `x`, for a
pair list `l`. -/
def lagTerm (l : List (Int × Int)) (x : F) (i : Nat) : F :=
  ((l.getD i (0, 0)).2 : F) *
    (((List.range l.length).filter (fun j => j ≠ i)).map (fun j =>
      lagWeight x ((l.getD i (0, 0)).1 : F) ((l.getD j (0, 0)).1 : F))).prod

/-- The plaintext bundle carried by shard index `i` of
`splitString(secret, N, T, ·)`: the `i`-th share of every character, in
character order (the closed form of the `forEach` transposition). -/
def charBundle (rand : Nat → Nat → Int) (secret : List Char) (N T i : Nat) :
    List (List Int) :=
  (stringToAsciiArray secret).enum.map (fun kv => (split kv.2 N T (rand kv.1)).getD i [])

theorem cast211 : (211 : F) = 0 := by
  have h := ZMod.natCast_self 211
  exact_mod_cast h

theorem neg_tmod (a b : Int) : (-a).tmod b = -(a.tmod b) := by
  rw [Int.tmod_def, Int.tmod_def, Int.neg_tdiv]; ring

theorem tmod_lb (a : Int) {b : Int} (hb : 0 < b) : -b < a.tmod b := by
  rcases le_or_lt 0 a with h | h
  · have := Int.tmod_nonneg b h; omega
  · have h1 : (-a).tmod b < b := Int.tmod_lt_of_pos _ hb
    have h2 : (-a).tmod b = -(a.tmod b) := neg_tmod a b
    omega

theorem subtract_range (a b : Int) : 0 ≤ subtract a b ∧ subtract a b < 211 := by
  unfold subtract prime
  have h1 := tmod_lb (a - b) (b := 211) (by norm_num)
  have h2 := Int.tmod_lt_of_pos (a - b) (b := (211 : Int)) (by norm_num)
  exact ⟨Int.tmod_nonneg _ (by omega), Int.tmod_lt_of_pos _ (by norm_num)⟩

theorem add_range {a b : Int} (ha : 0 ≤ a) (hb : 0 ≤ b) : 0 ≤ add a b ∧ add a b < 211 := by
  unfold add prime
  exact ⟨Int.tmod_nonneg _ (by omega), Int.tmod_lt_of_pos _ (by norm_num)⟩

theorem multiply_range {a b : Int} (ha : 0 ≤ a) (hb : 0 ≤ b) :
    0 ≤ multiply a b ∧ multiply a b < 211 := by
  unfold multiply prime
  exact ⟨Int.tmod_nonneg _ (mul_nonneg ha hb), Int.tmod_lt_of_pos _ (by norm_num)⟩

theorem cast_tmod (a : Int) : ((a.tmod 211 : Int) : F) = (a : F) := by
  rw [Int.tmod_def]
  push_cast
  rw [cast211]
  ring

theorem cast_add (a b : Int) : ((add a b : Int) : F) = (a : F) + (b : F) := by
  unfold add prime
  rw [cast_tmod]
  push_cast
  ring

theorem cast_subtract (a b : Int) : ((subtract a b : Int) : F) = (a : F) - (b : F) := by
  unfold subtract prime
  rw [cast_tmod]
  push_cast
  rw [cast_tmod, cast211]
  push_cast
  ring

theorem cast_multiply (a b : Int) : ((multiply a b : Int) : F) = (a : F) * (b : F) := by
  unfold multiply prime
  rw [cast_tmod]
  push_cast
  ring

/-- Two integers in `[0, 211)` with the same image in `F` are equal. -/
theorem eq_of_cast_eq {a b : Int} (ha0 : 0 ≤ a) (ha1 : a < 211) (hb0 : 0 ≤ b) (hb1 : b < 211)
    (h : (a : F) = (b : F)) : a = b := by
  rw [ZMod.intCast_eq_intCast_iff'] at h
  rw [Int.emod_eq_of_lt ha0 (by exact_mod_cast ha1),
    Int.emod_eq_of_lt hb0 (by exact_mod_cast hb1)] at h
  exact h

/-! ### The extended Euclidean loop computes the gcd and the modular inverse -/

theorem gcd_step {a m : Int} (ha : 0 ≤ a) (hm : 0 < m) : Int.gcd a m = Int.gcd m (a % m) := by
  rw [Int.gcd_def, Int.gcd_def]
  have hmod : a % m = ((a.toNat % m.toNat : Nat) : Int) := by
    push_cast
    rw [Int.toNat_of_nonneg ha, Int.toNat_of_nonneg hm.le]
  have h1 : a.natAbs = a.toNat := by omega
  have h2 : m.natAbs = m.toNat := by omega
  have h3 : (a % m).natAbs = a.toNat % m.toNat := by omega
  rw [h1, h2, h3, Nat.gcd_comm a.toNat m.toNat, Nat.gcd_rec, Nat.gcd_comm]

theorem egcdLoop_fst (a m x1 x2 y1 y2 : Int) :
    0 ≤ a → 0 ≤ m → (egcdLoop a m x1 x2 y1 y2).1 = (Int.gcd a m : Int) := by
  induction a, m, x1, x2, y1, y2 using egcdLoop.induct with
  | case1 a m x1 x2 y1 y2 hpos ih =>
    intro ha hm
    unfold egcdLoop
    rw [if_pos hpos]
    have heq : a - a / m * m = a % m := by rw [Int.emod_def]; ring
    have h0 : 0 ≤ a % m := Int.emod_nonneg a (by omega)
    rw [ih hpos.le (by omega)]
    rw [heq, gcd_step ha hpos]
  | case2 a m x1 x2 y1 y2 hpos =>
    intro ha hm
    unfold egcdLoop
    rw [if_neg hpos]
    have hm0 : m = 0 := by omega
    subst hm0
    rw [Int.gcd_zero_right]
    show a = (a.natAbs : Int)
    omega

theorem egcdLoop_snd_spec (A : F) (a m x1 x2 y1 y2 : Int) :
    (a : F) = (x1 : F) * A → (m : F) = (x2 : F) * A →
    0 ≤ x1 → x1 < 211 → 0 ≤ x2 → x2 < 211 →
    (((egcdLoop a m x1 x2 y1 y2).1 : Int) : F) = (((egcdLoop a m x1 x2 y1 y2).2 : Int) : F) * A
      ∧ 0 ≤ (egcdLoop a m x1 x2 y1 y2).2 ∧ (egcdLoop a m x1 x2 y1 y2).2 < 211 := by
  induction a, m, x1, x2, y1, y2 using egcdLoop.induct with
  | case1 a m x1 x2 y1 y2 hpos ih =>
    intro hia him hx10 hx11 hx20 hx21
    unfold egcdLoop
    rw [if_pos hpos]
    have hsub := subtract_range x1 (multiply (a / m) x2)
    refine ih him ?_ hx20 hx21 hsub.1 hsub.2
    rw [cast_subtract, cast_multiply]
    push_cast
    rw [hia, him]
    ring
  | case2 a m x1 x2 y1 y2 hpos =>
    intro hia him hx10 hx11 hx20 hx21
    unfold egcdLoop
    rw [if_neg hpos]
    exact ⟨hia, hx10, hx11⟩

theorem normalize_range (a : Int) :
    0 ≤ (a.tmod 211 + 211).tmod 211 ∧ (a.tmod 211 + 211).tmod 211 < 211 := by
  have h1 := tmod_lb a (b := (211 : Int)) (by norm_num)
  have h2 := Int.tmod_lt_of_pos a (b := (211 : Int)) (by norm_num)
  exact ⟨Int.tmod_nonneg _ (by omega), Int.tmod_lt_of_pos _ (by norm_num)⟩

theorem cast_normalize (a : Int) : (((a.tmod 211 + 211).tmod 211 : Int) : F) = (a : F) := by
  rw [cast_tmod]
  push_cast
  rw [cast_tmod, cast211]
  ring

/-- The normalised residue is zero exactly when the input is a multiple of
211. -/
theorem normalize_eq_zero_iff (a : Int) :
    (a.tmod 211 + 211).tmod 211 = 0 ↔ (a : F) = 0 := by
  have hr := normalize_range a
  have hc := cast_normalize a
  constructor
  · intro hz
    rw [hz] at hc
    simpa using hc.symm
  · intro h
    have hdvd : ((211 : ℕ) : Int) ∣ (a.tmod 211 + 211).tmod 211 := by
      rw [← ZMod.intCast_zmod_eq_zero_iff_dvd]
      rw [show ((((a.tmod 211 + 211).tmod 211 : Int)) : ZMod 211) = (a : F) from hc]
      exact h
    have hdvd' : (211 : Int) ∣ (a.tmod 211 + 211).tmod 211 := by exact_mod_cast hdvd
    omega

/-- For a non-multiple of 211 the final loop value of `a` is `gcd = 1`. -/
theorem normalize_gcd_one {a : Int} (h : (a : F) ≠ 0) :
    Int.gcd ((a.tmod 211 + 211).tmod 211) 211 = 1 := by
  have hr := normalize_range a
  have ha0 : (a.tmod 211 + 211).tmod 211 ≠ 0 := fun hz => h ((normalize_eq_zero_iff a).1 hz)
  rw [Int.gcd_def]
  have h211 : (211 : Int).natAbs = 211 := by norm_num
  rw [h211]
  have hk0 : 0 < ((a.tmod 211 + 211).tmod 211).natAbs := by omega
  have hk1 : ((a.tmod 211 + 211).tmod 211).natAbs < 211 := by omega
  have hnd : ¬(211 ∣ ((a.tmod 211 + 211).tmod 211).natAbs) := by omega
  have hco := (Nat.Prime.coprime_iff_not_dvd (by norm_num : Nat.Prime 211)).2 hnd
  rw [Nat.gcd_comm]
  exact hco

/-- `inversemod(a, prime)` fails exactly on the multiples of 211. -/
theorem inversemod_error_iff (a : Int) :
    inversemod a prime = .error .noInverse ↔ (a : F) = 0 := by
  unfold inversemod prime
  have hr := normalize_range a
  have hfst : (egcdLoop ((a.tmod 211 + 211).tmod 211) 211 1 0 0 1).1 =
      (Int.gcd ((a.tmod 211 + 211).tmod 211) 211 : Int) :=
    egcdLoop_fst _ 211 1 0 0 1 hr.1 (by norm_num)
  by_cases h : (a : F) = 0
  · have ha0 := (normalize_eq_zero_iff a).2 h
    rw [ha0] at hfst ⊢
    rw [Int.gcd_zero_left] at hfst
    rw [if_pos (by rw [hfst]; norm_num)]
    simp [h]
  · have hgcd := normalize_gcd_one h
    rw [hgcd] at hfst
    rw [if_neg (by rw [hfst]; norm_num)]
    simp [h]

/-- On a nonzero residue, `inversemod(a, prime)` returns the canonical
representative of the inverse. -/
theorem inversemod_ok {a : Int} (h : (a : F) ≠ 0) :
    ∃ b, inversemod a prime = .ok b ∧ 0 ≤ b ∧ b < 211 ∧ ((b : Int) : F) * (a : F) = 1 := by
  unfold inversemod prime
  have hr := normalize_range a
  have hc := cast_normalize a
  have hfst : (egcdLoop ((a.tmod 211 + 211).tmod 211) 211 1 0 0 1).1 =
      (Int.gcd ((a.tmod 211 + 211).tmod 211) 211 : Int) :=
    egcdLoop_fst _ 211 1 0 0 1 hr.1 (by norm_num)
  have hgcd := normalize_gcd_one h
  rw [hgcd] at hfst
  have hspec := egcdLoop_snd_spec (((a.tmod 211 + 211).tmod 211 : Int) : F)
    ((a.tmod 211 + 211).tmod 211) 211 1 0 0 1
    (by push_cast; ring) (by push_cast; rw [cast211]; ring)
    (by norm_num) (by norm_num) (by norm_num) (by norm_num)
  refine ⟨(egcdLoop ((a.tmod 211 + 211).tmod 211) 211 1 0 0 1).2, ?_, hspec.2.1, hspec.2.2, ?_⟩
  · rw [if_neg (by rw [hfst]; norm_num)]
  · have h1 : (((egcdLoop ((a.tmod 211 + 211).tmod 211) 211 1 0 0 1).1 : Int) : F) = 1 := by
      rw [hfst]; norm_num
    rw [h1] at hspec
    rw [← hc]
    exact hspec.1.symm

/-! ### Generic reduction helpers -/

theorem except_bind_ok {ε α β : Type} (a : α) (f : α → Except ε β) :
    (Except.ok a >>= f : Except ε β) = f a := rfl

theorem except_bind_error {ε α β : Type} (e : ε) (f : α → Except ε β) :
    ((Except.error e : Except ε α) >>= f) = (Except.error e : Except ε β) := rfl

theorem getD_eq_of_lt {α : Type} (l : List α) (i : Nat) (d : α) (h : i < l.length) :
    l.getD i d = l[i] := by
  rw [List.getD_eq_getElem?_getD, List.getElem?_eq_getElem h]
  rfl

theorem getD_mem {α : Type} {l : List α} {i : Nat} (h : i < l.length) (d : α) :
    l.getD i d ∈ l := by
  rw [getD_eq_of_lt l i d h]
  exact List.getElem_mem h

theorem getD_map_properPair (l : List (Int × Int)) (i : Nat) (h : i < l.length) :
    (l.map properPair).getD i none = properPair (l.getD i (0, 0)) := by
  rw [List.getD_eq_getElem?_getD, List.getElem?_map, List.getElem?_eq_getElem h,
    List.getD_eq_getElem?_getD, List.getElem?_eq_getElem h]
  rfl

theorem jsIndex_zero (a : JsNum) (rest : List JsNum) : jsIndex (a :: rest) 0 = a := rfl

theorem jsIndex_one (a b : JsNum) (rest : List JsNum) : jsIndex (a :: b :: rest) 1 = b := rfl

/-! ### The interpolation folds on well-formed shares with distinct nodes -/

theorem interpTermStep_fold (x : Int) (l : List (Int × Int)) (i : Nat) :
    ∀ (js : List Nat), (∀ j ∈ js, j < l.length) →
    (∀ j ∈ js, j ≠ i → (((l.getD j (0, 0)).1 : Int) : F) ≠ (((l.getD i (0, 0)).1 : Int) : F)) →
    ∀ t : Int, 0 ≤ t → t < 211 →
    ∃ t', js.foldlM
        (interpTermStep (some x) (l.map properPair) i
          [some (l.getD i (0, 0)).1, some (l.getD i (0, 0)).2]) (some t) = .ok (some t')
      ∧ 0 ≤ t' ∧ t' < 211
      ∧ (t' : F) = (t : F) * ((js.filter (fun j => j ≠ i)).map (fun j =>
          lagWeight (x : F) ((l.getD i (0, 0)).1 : F) ((l.getD j (0, 0)).1 : F))).prod := by
  intro js
  induction js with
  | nil =>
    intro _ _ t ht0 ht1
    exact ⟨t, rfl, ht0, ht1, by simp⟩
  | cons j js ih =>
    intro hmem hden t ht0 ht1
    rw [List.foldlM_cons]
    by_cases hij : i = j
    · have hstep : interpTermStep (some x) (l.map properPair) i
          [some (l.getD i (0, 0)).1, some (l.getD i (0, 0)).2] (some t) j =
          Except.ok (some t) := by
        unfold interpTermStep
        rw [if_neg (by simp [hij])]
        rfl
      rw [hstep, except_bind_ok]
      obtain ⟨t', h1, h2, h3, h4⟩ := ih (fun j hj => hmem j (by simp [hj]))
        (fun j hj => hden j (by simp [hj])) t ht0 ht1
      refine ⟨t', h1, h2, h3, ?_⟩
      rw [h4]
      have : ¬(j ≠ i) := by omega
      simp [List.filter_cons, this]
    · have hj : j < l.length := hmem j (by simp)
      have hji : j ≠ i := fun h => hij h.symm
      have hdenj := hden j (by simp) hji
      have hne : ((subtract (l.getD i (0, 0)).1 (l.getD j (0, 0)).1 : Int) : F) ≠ 0 := by
        rw [cast_subtract]
        exact sub_ne_zero_of_ne (fun h => hdenj h.symm)
      obtain ⟨inv, hinv_eq, hinv0, hinv1, hinvmul⟩ := inversemod_ok hne
      have hstep : interpTermStep (some x) (l.map properPair) i
          [some (l.getD i (0, 0)).1, some (l.getD i (0, 0)).2] (some t) j =
          .ok (some (multiply t (multiply (subtract x (l.getD j (0, 0)).1) inv))) := by
        unfold interpTermStep jsDivide jsInversemod
        rw [if_pos hij, getD_map_properPair l j hj]
        show ((inversemod (subtract (l.getD i (0, 0)).1 (l.getD j (0, 0)).1) prime).map
            (fun iv => jsMul (some (subtract x (l.getD j (0, 0)).1)) (some iv)) >>=
              fun d => pure (jsMul (some t) d)) = _
        rw [hinv_eq]
        rfl
      rw [hstep, except_bind_ok]
      have hs1 := subtract_range x (l.getD j (0, 0)).1
      have hm1 := multiply_range hs1.1 hinv0
      have hm2 := multiply_range ht0 hm1.1
      obtain ⟨t', h1, h2, h3, h4⟩ := ih (fun j hj => hmem j (by simp [hj]))
        (fun j hj => hden j (by simp [hj])) _ hm2.1 hm2.2
      refine ⟨t', h1, h2, h3, ?_⟩
      rw [h4]
      have hfil : (j :: js).filter (fun j => j ≠ i) = j :: js.filter (fun j => j ≠ i) := by
        simp [List.filter_cons, hji]
      have hinv' : ((inv : Int) : F) =
          (((l.getD i (0, 0)).1 : F) - ((l.getD j (0, 0)).1 : F))⁻¹ := by
        have := eq_inv_of_mul_eq_one_left hinvmul
        rw [this, cast_subtract]
      rw [hfil, List.map_cons, List.prod_cons, cast_multiply, cast_multiply, cast_subtract,
        hinv']
      unfold lagWeight
      ring

theorem interpOuterStep_fold (x : Int) (l : List (Int × Int))
    (hy : ∀ p ∈ l, 0 ≤ p.2 ∧ p.2 < 211)
    (hden : ∀ i, i < l.length → ∀ j, j < l.length → j ≠ i →
      (((l.getD j (0, 0)).1 : Int) : F) ≠ (((l.getD i (0, 0)).1 : Int) : F)) :
    ∀ (is : List Nat), (∀ i ∈ is, i < l.length) →
    ∀ r : Int, 0 ≤ r → r < 211 →
    ∃ r', is.foldlM (interpOuterStep (some x) (l.map properPair)) (some r) = .ok (some r')
      ∧ 0 ≤ r' ∧ r' < 211
      ∧ (r' : F) = (r : F) + (is.map (lagTerm l ((x : Int) : F))).sum := by
  intro is
  induction is with
  | nil =>
    intro _ r hr0 hr1
    exact ⟨r, rfl, hr0, hr1, by simp⟩
  | cons i is ih =>
    intro hmem r hr0 hr1
    rw [List.foldlM_cons]
    have hi : i < l.length := hmem i (by simp)
    have hyi := hy _ (getD_mem hi (0, 0))
    obtain ⟨t', hfold, ht0, ht1, hcast⟩ := interpTermStep_fold x l i (List.range l.length)
      (fun j hj => by simpa using hj)
      (fun j hjr hji => hden i hi j (List.mem_range.mp hjr) hji)
      (l.getD i (0, 0)).2 hyi.1 hyi.2
    have hstep : interpOuterStep (some x) (l.map properPair) (some r) i =
        .ok (some (add r t')) := by
      unfold interpOuterStep
      rw [getD_map_properPair l i hi]
      show ((List.range (l.map properPair).length).foldlM
          (interpTermStep (some x) (l.map properPair) i
            [some (l.getD i (0, 0)).1, some (l.getD i (0, 0)).2])
          (jsIndex [some (l.getD i (0, 0)).1, some (l.getD i (0, 0)).2] 1) >>=
            fun term => pure (jsAdd (some r) term)) = _
      rw [List.length_map,
        show jsIndex [some (l.getD i (0, 0)).1, some (l.getD i (0, 0)).2] 1 =
          some (l.getD i (0, 0)).2 from rfl,
        hfold, except_bind_ok]
      rfl
    rw [hstep, except_bind_ok]
    have hr2 := add_range hr0 ht0
    obtain ⟨r', h1, h2, h3, h4⟩ := ih (fun j hj => hmem j (by simp [hj])) _ hr2.1 hr2.2
    refine ⟨r', h1, h2, h3, ?_⟩
    rw [h4, cast_add, hcast, List.map_cons, List.sum_cons, lagTerm]
    ring

/-- On a list of well-formed shares whose `x` values are pairwise distinct
modulo 211, `interpolate` at a plain number succeeds and computes the
Lagrange sum, with a result in `[0, 211)`. -/
theorem interpolate_proper (x : Int) (l : List (Int × Int))
    (hy : ∀ p ∈ l, 0 ≤ p.2 ∧ p.2 < 211)
    (hden : ∀ i, i < l.length → ∀ j, j < l.length → j ≠ i →
      (((l.getD j (0, 0)).1 : Int) : F) ≠ (((l.getD i (0, 0)).1 : Int) : F)) :
    ∃ r, interpolate (l.map properPair) (some x) = .ok (some r)
      ∧ 0 ≤ r ∧ r < 211
      ∧ (r : F) = ((List.range l.length).map (lagTerm l ((x : Int) : F))).sum := by
  unfold interpolate
  rw [List.length_map]
  obtain ⟨r', h1, h2, h3, h4⟩ := interpOuterStep_fold x l hy hden (List.range l.length)
    (fun j hj => by simpa using hj) 0 le_rfl (by norm_num)
  refine ⟨r', h1, h2, h3, ?_⟩
  rw [h4]
  simp

/-! ### Lists over `range` versus `Finset` sums and products -/

theorem listSum_range_eq {M : Type} [AddCommMonoid M] (n : Nat) (g : Nat → M) :
    ((List.range n).map g).sum = ∑ i ∈ Finset.range n, g i := by
  induction n with
  | zero => simp
  | succ n ih =>
    rw [List.range_succ, List.map_append, List.sum_append, Finset.sum_range_succ, ih]
    simp

theorem listProd_filter_range_eq {M : Type} [CommMonoid M] (n i : Nat) (g : Nat → M) :
    (((List.range n).filter (fun j => j ≠ i)).map g).prod =
      ∏ j ∈ (Finset.range n).erase i, g j := by
  induction n with
  | zero => simp
  | succ n ih =>
    simp only [ne_eq, decide_not] at ih ⊢
    rw [List.range_succ, List.filter_append, List.map_append, List.prod_append,
      Finset.range_succ]
    by_cases h : n = i
    · subst h
      rw [Finset.erase_insert (by simp)]
      rw [Finset.erase_eq_of_not_mem (by simp)] at ih
      simp [ih]
    · rw [Finset.erase_insert_of_ne (fun hc => h hc), Finset.prod_insert (by simp)]
      simp [h, ih, mul_comm]

/-! ### Horner evaluation versus Mathlib polynomials -/

theorem evaluatePolynomial_range (coeffs : List Int) (x : Int)
    (hc : ∀ c ∈ coeffs, 0 ≤ c) (hx : 0 ≤ x) :
    0 ≤ evaluatePolynomial coeffs x ∧ evaluatePolynomial coeffs x < 211 := by
  induction coeffs with
  | nil => exact ⟨le_rfl, by norm_num [evaluatePolynomial]⟩
  | cons c cs ih =>
    have hrec := ih (fun c hc' => hc c (by simp [hc']))
    have hm := multiply_range hrec.1 hx
    exact add_range hm.1 (hc c (by simp))

theorem evaluatePolynomial_cast (coeffs : List Int) (x : Int) :
    ((evaluatePolynomial coeffs x : Int) : F) =
      (ofCoeffs (coeffs.map (fun c => ((c : Int) : F)))).eval ((x : Int) : F) := by
  induction coeffs with
  | nil => simp [evaluatePolynomial, ofCoeffs]
  | cons c cs ih =>
    have h : evaluatePolynomial (c :: cs) x =
        add (multiply (evaluatePolynomial cs x) x) c := rfl
    rw [h, cast_add, cast_multiply, ih]
    simp [ofCoeffs]
    ring

theorem ofCoeffs_degree_lt (L : List F) : (ofCoeffs L).degree < ((L.length : ℕ) : WithBot ℕ) := by
  induction L with
  | nil =>
    simp [ofCoeffs]
  | cons c cs ih =>
    show (Polynomial.C c + Polynomial.X * ofCoeffs cs).degree < _
    refine lt_of_le_of_lt (Polynomial.degree_add_le _ _) (max_lt ?_ ?_)
    · refine lt_of_le_of_lt Polynomial.degree_C_le ?_
      exact_mod_cast Nat.cast_lt.mpr (Nat.succ_pos cs.length)
    · refine lt_of_le_of_lt (Polynomial.degree_mul_le _ _) ?_
      rw [Polynomial.degree_X]
      have h2 : (((c :: cs).length : ℕ) : WithBot ℕ) = 1 + ((cs.length : ℕ) : WithBot ℕ) := by
        rw [List.length_cons]
        push_cast
        rw [add_comm]
      rw [h2]
      exact WithBot.add_lt_add_left (by simp) ih

/-! ### The Lagrange sum recovers the polynomial value -/

theorem lagrange_listSum (n : Nat) (v r : Nat → F) (f : Polynomial F)
    (hinj : ∀ i, i < n → ∀ j, j < n → i ≠ j → v i ≠ v j)
    (hdeg : f.degree < ((n : ℕ) : WithBot ℕ))
    (hval : ∀ i, i < n → r i = f.eval (v i)) (t : F) :
    ((List.range n).map (fun i => r i *
      (((List.range n).filter (fun j => j ≠ i)).map (fun j => lagWeight t (v i) (v j))).prod)).sum
      = f.eval t := by
  rw [listSum_range_eq]
  have hsum : ∀ i ∈ Finset.range n,
      r i * (((List.range n).filter (fun j => j ≠ i)).map
          (fun j => lagWeight t (v i) (v j))).prod
        = f.eval (v i) * ∏ j ∈ (Finset.range n).erase i, (t - v j) * (v i - v j)⁻¹ := by
    intro i hi
    rw [listProd_filter_range_eq, hval i (Finset.mem_range.mp hi)]
    rfl
  rw [Finset.sum_congr rfl hsum]
  have hInj : Set.InjOn v ↑(Finset.range n) := by
    intro a ha b hb hab
    by_contra hne
    exact hinj a (by simpa using ha) b (by simpa using hb) hne hab
  have hf := Lagrange.eq_interpolate hInj (by simpa using hdeg)
  conv_rhs => rw [hf]
  rw [Lagrange.interpolate_apply, Polynomial.eval_finset_sum]
  refine Finset.sum_congr rfl ?_
  intro i _
  rw [Polynomial.eval_mul, Polynomial.eval_C]
  congr 1
  rw [show Lagrange.basis (Finset.range n) v i =
      ∏ j ∈ (Finset.range n).erase i, Lagrange.basisDivisor (v i) (v j) from rfl,
    Polynomial.eval_prod]
  refine Finset.prod_congr rfl ?_
  intro j _
  rw [show Lagrange.basisDivisor (v i) (v j) =
      Polynomial.C (v i - v j)⁻¹ * (Polynomial.X - Polynomial.C (v j)) from rfl]
  simp
  ring

theorem getD_map_node (xs : List Int) (g : Int → Int) (i : Nat) (h : i < xs.length) :
    (xs.map (fun x => (x, g x))).getD i (0, 0) = (xs.getD i 0, g (xs.getD i 0)) := by
  rw [getD_eq_of_lt _ _ _ (by simpa using h), List.getElem_map, getD_eq_of_lt _ _ _ h]

/-- The central mathematical fact: interpolating at 0, over any node list
whose values come from one Horner polynomial, with at least as many
pairwise-distinct (mod 211) non-negative nodes as coefficients, returns the
constant coefficient exactly. -/
theorem interpolate_nodes (coeffs : List Int) (hcnn : ∀ c ∈ coeffs, 0 ≤ c)
    (hc0 : 0 ≤ coeffs.getD 0 0) (hc0' : coeffs.getD 0 0 < 211) (hne : coeffs ≠ [])
    (xs : List Int) (hx0 : ∀ x ∈ xs, 0 ≤ x)
    (hdist : ∀ i, i < xs.length → ∀ j, j < xs.length → j ≠ i →
      ((xs.getD j 0 : Int) : F) ≠ ((xs.getD i 0 : Int) : F))
    (hcard : coeffs.length ≤ xs.length) :
    interpolate ((xs.map (fun x => (x, evaluatePolynomial coeffs x))).map properPair) (some 0)
      = .ok (some (coeffs.getD 0 0)) := by
  set l := xs.map (fun x => (x, evaluatePolynomial coeffs x)) with hl
  have hlen : l.length = xs.length := by simp [hl]
  have hnode : ∀ i, i < xs.length →
      l.getD i (0, 0) = (xs.getD i 0, evaluatePolynomial coeffs (xs.getD i 0)) := by
    intro i hi
    exact getD_map_node xs _ i hi
  have hy : ∀ p ∈ l, 0 ≤ p.2 ∧ p.2 < 211 := by
    intro p hp
    rw [hl] at hp
    obtain ⟨x, hx, rfl⟩ := List.mem_map.mp hp
    exact evaluatePolynomial_range coeffs x hcnn (hx0 x hx)
  have hden : ∀ i, i < l.length → ∀ j, j < l.length → j ≠ i →
      (((l.getD j (0, 0)).1 : Int) : F) ≠ (((l.getD i (0, 0)).1 : Int) : F) := by
    intro i hi j hj hji
    rw [hnode i (hlen ▸ hi), hnode j (hlen ▸ hj)]
    exact hdist i (hlen ▸ hi) j (hlen ▸ hj) hji
  obtain ⟨r, hok, hr0, hr1, hcast⟩ := interpolate_proper 0 l hy hden
  have hmain : (r : F) = ((coeffs.getD 0 0 : Int) : F) := by
    rw [hcast]
    have hv := lagrange_listSum l.length
      (fun i => (((l.getD i (0, 0)).1 : Int) : F))
      (fun i => (((l.getD i (0, 0)).2 : Int) : F))
      (ofCoeffs (coeffs.map (fun c => ((c : Int) : F))))
      (fun i hi j hj hij => hden j hj i hi hij)
      (by
        refine lt_of_lt_of_le (ofCoeffs_degree_lt _) ?_
        rw [List.length_map]
        exact_mod_cast Nat.cast_le.mpr (hlen ▸ hcard))
      (by
        intro i hi
        show (((l.getD i (0, 0)).2 : Int) : F) =
          Polynomial.eval (((l.getD i (0, 0)).1 : Int) : F)
            (ofCoeffs (coeffs.map (fun c => ((c : Int) : F))))
        rw [hnode i (hlen ▸ hi)]
        exact evaluatePolynomial_cast coeffs (xs.getD i 0))
      ((0 : Int) : F)
    have hform : (List.range l.length).map (lagTerm l ((0 : Int) : F)) =
        (List.range l.length).map (fun i =>
          (((l.getD i (0, 0)).2 : Int) : F) *
          (((List.range l.length).filter (fun j => j ≠ i)).map (fun j =>
            lagWeight ((0 : Int) : F) (((l.getD i (0, 0)).1 : Int) : F)
              (((l.getD j (0, 0)).1 : Int) : F))).prod) := rfl
    rw [hform, hv]
    obtain ⟨c0, cs, rfl⟩ := List.exists_cons_of_ne_nil hne
    show (ofCoeffs (((c0 : Int) : F) :: cs.map (fun c => ((c : Int) : F)))).eval _ = _
    show (Polynomial.C ((c0 : Int) : F) +
      Polynomial.X * ofCoeffs (cs.map (fun c => ((c : Int) : F)))).eval _ = _
    simp
  have : r = coeffs.getD 0 0 := eq_of_cast_eq hr0 hr1 hc0 hc0' hmain
  rw [← this]
  exact hok

/-! ### String codec round trips -/

theorem jsSplit_not_mem (sep : Char) (s : List Char) (h : sep ∉ s) : jsSplit sep s = [s] := by
  induction s with
  | nil => rfl
  | cons c rest ih =>
    have hc : ¬(c = sep) := fun hc => h (by simp [hc])
    simp only [jsSplit, if_neg hc]
    rw [ih (fun hm => h (by simp [hm]))]

theorem jsSplit_append (sep : Char) (a b : List Char) (h : sep ∉ a) :
    jsSplit sep (a ++ sep :: b) = a :: jsSplit sep b := by
  induction a with
  | nil => simp [jsSplit]
  | cons c rest ih =>
    have hc : ¬(c = sep) := fun hc => h (by simp [hc])
    simp only [List.cons_append, jsSplit, if_neg hc, List.append_eq]
    rw [ih (fun hm => h (by simp [hm]))]

theorem jsSplit_join (sep : Char) (parts : List (List Char)) (hne : parts ≠ [])
    (h : ∀ p ∈ parts, sep ∉ p) : jsSplit sep (jsJoin sep parts) = parts := by
  induction parts with
  | nil => exact absurd rfl hne
  | cons p rest ih =>
    cases rest with
    | nil =>
      show jsSplit sep p = [p]
      exact jsSplit_not_mem sep p (h p (by simp))
    | cons q rest' =>
      show jsSplit sep (p ++ sep :: jsJoin sep (q :: rest')) = _
      rw [jsSplit_append sep p _ (h p (by simp))]
      rw [ih (by simp) (fun p' hp' => h p' (by simp [hp']))]

theorem mem_jsJoin (sep : Char) (parts : List (List Char)) (c : Char)
    (hc : c ∈ jsJoin sep parts) : c = sep ∨ ∃ p ∈ parts, c ∈ p := by
  induction parts with
  | nil => simp [jsJoin] at hc
  | cons p rest ih =>
    cases rest with
    | nil =>
      right
      exact ⟨p, by simp, hc⟩
    | cons q rest' =>
      rw [show jsJoin sep (p :: q :: rest') = p ++ sep :: jsJoin sep (q :: rest') from rfl] at hc
      rw [List.mem_append, List.mem_cons] at hc
      rcases hc with h | h | h
      · exact Or.inr ⟨p, by simp, h⟩
      · exact Or.inl h
      · rcases ih h with h' | ⟨p', hp', hc'⟩
        · exact Or.inl h'
        · exact Or.inr ⟨p', by simp [hp'], hc'⟩

theorem foldl_reverse_ofDigits (L : List Nat) :
    L.reverse.foldl (fun a d => 10 * a + d) 0 = Nat.ofDigits 10 L := by
  induction L with
  | nil => rfl
  | cons d rest ih =>
    rw [List.reverse_cons, List.foldl_append, ih, Nat.ofDigits_cons]
    show 10 * Nat.ofDigits 10 rest + d = _
    omega

theorem digit_char_round (d : Nat) (hd : d < 10) : (Char.ofNat (d + 48)).toNat - 48 = d := by
  interval_cases d <;> decide

theorem digit_char_isDigit (d : Nat) (hd : d < 10) : (Char.ofNat (d + 48)).isDigit = true := by
  interval_cases d <;> decide

theorem digitsToNat_natToDigits (n : Nat) : digitsToNat (natToDigits n) = n := by
  unfold natToDigits
  by_cases h : n = 0
  · subst h
    rfl
  · rw [if_neg h]
    unfold digitsToNat
    rw [List.foldl_map]
    have hext : (Nat.digits 10 n).reverse.foldl
        (fun acc c => 10 * acc + ((Char.ofNat (c + 48)).toNat - 48)) 0 =
        (Nat.digits 10 n).reverse.foldl (fun a d => 10 * a + d) 0 := by
      apply List.foldl_ext
      intro acc d hd
      rw [digit_char_round d (Nat.digits_lt_base (by norm_num) (List.mem_reverse.mp hd))]
    rw [hext, foldl_reverse_ofDigits, Nat.ofDigits_digits]

theorem natToDigits_all_digit (n : Nat) : (natToDigits n).all Char.isDigit = true := by
  unfold natToDigits
  by_cases h : n = 0
  · subst h
    rfl
  · rw [if_neg h, List.all_eq_true]
    intro c hc
    obtain ⟨d, hd, rfl⟩ := List.mem_map.mp hc
    exact digit_char_isDigit d (Nat.digits_lt_base (by norm_num) (List.mem_reverse.mp hd))

theorem natToDigits_ne_nil (n : Nat) : natToDigits n ≠ [] := by
  unfold natToDigits
  by_cases h : n = 0
  · simp [h]
  · rw [if_neg h]
    simp [Nat.digits_ne_nil_iff_ne_zero.mpr h]

theorem numToString_ne_nil (n : Int) : numToString n ≠ [] := by
  unfold numToString
  by_cases h : n < 0
  · simp [h]
  · rw [if_neg h]
    exact natToDigits_ne_nil _

theorem mem_numToString {n : Int} {c : Char} (hc : c ∈ numToString n) :
    c.isDigit = true ∨ c = '-' := by
  unfold numToString at hc
  by_cases h : n < 0
  · rw [if_pos h, List.mem_cons] at hc
    rcases hc with rfl | hc
    · exact Or.inr rfl
    · exact Or.inl (List.all_eq_true.mp (natToDigits_all_digit _) c hc)
  · rw [if_neg h] at hc
    exact Or.inl (List.all_eq_true.mp (natToDigits_all_digit _) c hc)

theorem sep_not_mem_numToString (n : Int) (ch : Char)
    (h1 : ch.isDigit = false) (h2 : ch ≠ '-') : ch ∉ numToString n := by
  intro hm
  rcases mem_numToString hm with h | h
  · rw [h1] at h
    cases h
  · exact h2 h

theorem jsNumberOfChars_numToString (n : Int) : jsNumberOfChars (numToString n) = some n := by
  by_cases h : n < 0
  · have hform : numToString n = '-' :: natToDigits n.natAbs := by
      unfold numToString
      rw [if_pos h]
    rw [hform]
    unfold jsNumberOfChars
    rw [if_neg (by simp)]
    have hnotall : ¬(('-' :: natToDigits n.natAbs).all Char.isDigit = true) := by
      simp [List.all_cons]
    rw [if_neg hnotall]
    show (if '-' = '-' ∧ natToDigits n.natAbs ≠ [] ∧ (natToDigits n.natAbs).all Char.isDigit = true
      then some (-(digitsToNat (natToDigits n.natAbs) : Int)) else none) = some n
    rw [if_pos ⟨rfl, natToDigits_ne_nil _, natToDigits_all_digit _⟩]
    rw [digitsToNat_natToDigits]
    have : ((n.natAbs : Nat) : Int) = -n := by omega
    rw [this]
    simp
  · have hform : numToString n = natToDigits n.toNat := by
      unfold numToString
      rw [if_neg h]
    rw [hform]
    unfold jsNumberOfChars
    rw [if_neg (natToDigits_ne_nil _), if_pos (natToDigits_all_digit _),
      digitsToNat_natToDigits]
    congr 1
    omega

/-! ### Bundle serialisation round trip -/

theorem jsSplit_join_map_numToString (sh : List Int) (hsh : sh ≠ []) :
    jsSplit ' ' (jsJoin ' ' (sh.map numToString)) = sh.map numToString := by
  apply jsSplit_join
  · simp [hsh]
  · intro p hp
    obtain ⟨m, _, rfl⟩ := List.mem_map.mp hp
    exact sep_not_mem_numToString m ' ' (by decide) (by decide)

theorem parse_serialize (bundle : List (List Int)) (hb : bundle ≠ [])
    (hsh : ∀ sh ∈ bundle, sh ≠ []) :
    parseBundle (serializeBundle bundle) = bundle.map (fun sh => sh.map some) := by
  have hcomma : ∀ p ∈ bundle.map (fun s => jsJoin ' ' (s.map numToString)), ',' ∉ p := by
    intro p hp
    obtain ⟨sh, hshm, rfl⟩ := List.mem_map.mp hp
    intro hmem
    rcases mem_jsJoin ' ' _ ',' hmem with h | ⟨p', hp', hc'⟩
    · cases h
    · obtain ⟨m, _, rfl⟩ := List.mem_map.mp hp'
      exact sep_not_mem_numToString m ',' (by decide) (by decide) hc'
  unfold parseBundle serializeBundle
  rw [jsSplit_join ',' _ (by simp [hb]) hcomma]
  rw [List.map_map]
  apply List.map_congr_left
  intro sh hshm
  show (jsSplit ' ' (jsJoin ' ' (sh.map numToString))).map jsNumberOfChars = sh.map some
  rw [jsSplit_join_map_numToString sh (hsh sh hshm), List.map_map]
  apply List.map_congr_left
  intro m _
  exact jsNumberOfChars_numToString m

/-! ### Decrypting an encrypted shard recovers the serialised bundle -/

theorem decryptShare_encryptShare (P : CryptoPlatform) (hP : GoodPlatform P)
    (iv : List Char) (bundle : List (List Int)) (pw : List Char) :
    decryptShare P (encryptShare P iv bundle pw) pw =
      .ok (parseBundle (serializeBundle bundle)) := by
  obtain ⟨h1, h2, h3⟩ := hP
  unfold decryptShare encryptShare
  rw [jsSplit_append ':' _ _ (h3 iv),
    jsSplit_not_mem ':' _ (h3 (P.aeadEnc pw iv (serializeBundle bundle))),
    List.map_cons, List.map_cons, List.map_nil, h2, h2]
  show (match P.aeadDec pw iv (P.aeadEnc pw iv (serializeBundle bundle)) with
    | some decodedData => Except.ok (parseBundle decodedData)
    | none => Except.error JsErr.authFailure) = _
  rw [h1]

/-! ### `split`, `generatePolynomial`, and the `splitString` transposition -/

theorem split_length (v : Int) (N T : Nat) (rand : Nat → Int) :
    (split v N T rand).length = N := by
  simp [split]

theorem split_getD (v : Int) (N T : Nat) (rand : Nat → Int) (i : Nat) (h : i < N) :
    (split v N T rand).getD i [] =
      [((i + 1 : Nat) : Int),
        evaluatePolynomial (generatePolynomial (T - 1) v rand) ((i + 1 : Nat) : Int)] := by
  unfold split
  rw [getD_eq_of_lt _ _ _ (by simpa using h), List.getElem_map, List.getElem_range]

theorem generatePolynomial_length (d : Nat) (v : Int) (r : Nat → Int) :
    (generatePolynomial d v r).length = d + 1 := by
  simp [generatePolynomial]

theorem generatePolynomial_nonneg (d : Nat) (v : Int) (r : Nat → Int) (hv : 0 ≤ v)
    (hr : ∀ i, 0 ≤ r i) : ∀ c ∈ generatePolynomial d v r, 0 ≤ c := by
  intro c hc
  rcases List.mem_cons.mp hc with rfl | hc'
  · exact hv
  · obtain ⟨i, _, rfl⟩ := List.mem_map.mp hc'
    exact hr _

theorem transpose_foldl (g : Nat × Int → List (List Int)) (N : Nat)
    (hg : ∀ kv, (g kv).length = N) :
    ∀ (l : List (Nat × Int)) (acc : List (List (List Int))), acc.length = N →
      (l.foldl (fun acc kv =>
        List.zipWith (fun bucket share => bucket ++ [share]) acc (g kv)) acc).length = N ∧
      ∀ i, i < N →
        (l.foldl (fun acc kv =>
          List.zipWith (fun bucket share => bucket ++ [share]) acc (g kv)) acc).getD i [] =
          acc.getD i [] ++ l.map (fun kv => (g kv).getD i []) := by
  intro l
  induction l with
  | nil =>
    intro acc hacc
    exact ⟨hacc, fun i hi => by simp⟩
  | cons kv l ih =>
    intro acc hacc
    rw [List.foldl_cons]
    have hlen : (List.zipWith (fun bucket share => bucket ++ [share]) acc (g kv)).length = N := by
      simp [List.length_zipWith, hacc, hg kv]
    obtain ⟨h1, h2⟩ := ih _ hlen
    refine ⟨h1, fun i hi => ?_⟩
    rw [h2 i hi]
    have hia : i < acc.length := by omega
    have hig : i < (g kv).length := by rw [hg kv]; exact hi
    have hzip : (List.zipWith (fun bucket share => bucket ++ [share]) acc (g kv)).getD i [] =
        acc.getD i [] ++ [(g kv).getD i []] := by
      rw [getD_eq_of_lt _ _ _ (by rw [hlen]; exact hi), List.getElem_zipWith,
        getD_eq_of_lt _ _ _ hia, getD_eq_of_lt _ _ _ hig]
    rw [hzip, List.map_cons, List.append_assoc]
    rfl

theorem splitString_length (P : CryptoPlatform) (rand : Nat → Nat → Int)
    (ivs : Nat → List Char) (secret : List Char) (N T : Nat) (pw : List Char) :
    (splitString P rand ivs secret N T pw).length = N := by
  unfold splitString
  rw [List.length_map, List.enum_length]
  exact (transpose_foldl _ N (fun kv => split_length _ _ _ _) _ _ (by simp)).1

theorem splitString_getD (P : CryptoPlatform) (rand : Nat → Nat → Int)
    (ivs : Nat → List Char) (secret : List Char) (N T : Nat) (pw : List Char)
    (i : Nat) (hi : i < N) :
    (splitString P rand ivs secret N T pw).getD i [] =
      encryptShare P (ivs i) (charBundle rand secret N T i) pw := by
  unfold splitString
  obtain ⟨hlen, hget⟩ :=
    transpose_foldl (fun kv => split kv.2 N T (rand kv.1)) N
      (fun kv => split_length _ _ _ _) (stringToAsciiArray secret).enum
      (List.replicate N []) (by simp)
  rw [getD_eq_of_lt _ _ _ (by rw [List.length_map, List.enum_length, hlen]; exact hi),
    List.getElem_map, List.getElem_enum]
  have hcomb := hget i hi
  rw [getD_eq_of_lt _ _ _ (by rw [hlen]; exact hi)] at hcomb
  rw [hcomb]
  have hrepl : (List.replicate N ([] : List (List Int))).getD i [] = [] := by
    rw [getD_eq_of_lt _ _ _ (by simpa using hi), List.getElem_replicate]
  rw [hrepl, List.nil_append]
  rfl

theorem charBundle_length (rand : Nat → Nat → Int) (secret : List Char) (N T i : Nat) :
    (charBundle rand secret N T i).length = secret.length := by
  simp [charBundle, stringToAsciiArray]

theorem charBundle_getD (rand : Nat → Nat → Int) (secret : List Char) (N T i k : Nat)
    (hk : k < secret.length) (hi : i < N) :
    (charBundle rand secret N T i).getD k [] =
      [((i + 1 : Nat) : Int),
        evaluatePolynomial
          (generatePolynomial (T - 1) (((secret.getD k ' ').toNat : Nat) : Int) (rand k))
          ((i + 1 : Nat) : Int)] := by
  unfold charBundle
  have hk1 : k < (stringToAsciiArray secret).enum.length := by
    simpa [stringToAsciiArray] using hk
  rw [getD_eq_of_lt _ _ _ (by simpa using hk1), List.getElem_map, List.getElem_enum]
  have hk2 : k < (stringToAsciiArray secret).length := by
    simpa [stringToAsciiArray] using hk
  have hval : (stringToAsciiArray secret)[k] =
      (((secret.getD k ' ').toNat : Nat) : Int) := by
    unfold stringToAsciiArray
    rw [List.getElem_map, getD_eq_of_lt _ _ _ hk]
  rw [hval, split_getD _ _ _ _ _ hi]

/-! ### `mapM` helpers over `Except` -/

theorem mapM_map_ok {α β γ : Type} (f : γ → Except JsErr β) (g : α → γ) (h : α → β)
    (l : List α) (hfg : ∀ a ∈ l, f (g a) = .ok (h a)) :
    (l.map g).mapM f = .ok (l.map h) := by
  induction l with
  | nil => rfl
  | cons a l ih =>
    rw [List.map_cons, List.mapM_cons, hfg a (by simp), except_bind_ok,
      ih (fun a ha => hfg a (by simp [ha])), except_bind_ok, List.map_cons]
    rfl

theorem mapM_ok_of_forall {α β : Type} (f : α → Except JsErr β) (g : α → β) (l : List α)
    (h : ∀ a ∈ l, f a = .ok (g a)) : l.mapM f = .ok (l.map g) := by
  induction l with
  | nil => rfl
  | cons a l ih =>
    rw [List.mapM_cons, h a (by simp), except_bind_ok,
      ih (fun a ha => h a (by simp [ha])), except_bind_ok, List.map_cons]
    rfl

theorem mapM_ok_length {α β : Type} (f : α → Except JsErr β) (l : List α) (r : List β)
    (h : l.mapM f = .ok r) : r.length = l.length := by
  induction l generalizing r with
  | nil =>
    have : r = [] := by
      have h' : (Except.ok [] : Except JsErr (List β)) = .ok r := h ▸ rfl
      cases h'
      rfl
    simp [this]
  | cons a l ih =>
    rw [List.mapM_cons] at h
    cases hfa : f a with
    | error e => rw [hfa, except_bind_error] at h; cases h
    | ok b =>
      rw [hfa, except_bind_ok] at h
      cases hml : l.mapM f with
      | error e => rw [hml, except_bind_error] at h; cases h
      | ok rest =>
        rw [hml, except_bind_ok] at h
        have : b :: rest = r := by
          have h' : (Except.ok (b :: rest) : Except JsErr (List β)) = .ok r := h
          cases h'
          rfl
        rw [← this, List.length_cons, ih rest hml]
        simp

theorem map_range_getD {α : Type} (l : List α) (d : α) :
    (List.range l.length).map (fun k => l.getD k d) = l := by
  apply List.ext_getElem (by simp)
  intro i h1 h2
  rw [List.getElem_map, List.getElem_range]
  exact (getD_eq_of_lt l i d h2).symm ▸ rfl

/-! ### Structure of `reconstructBundles` and `reconstructString` -/

theorem reconstructBundles_nil : reconstructBundles [] = .error .typeError := rfl

theorem reconstructBundles_cons (first : List (List JsNum))
    (rest : List (List (List JsNum))) :
    reconstructBundles (first :: rest) =
      ((List.range first.length).mapM (fun index =>
        reconstruct ((first :: rest).map (fun share => share.get? index)))).map
        asciiArrayToString := by
  show ((List.range first.length).mapM (fun index =>
      reconstruct ((first :: rest).map (fun share => share.get? index))) >>=
      fun asciiValues => pure (asciiArrayToString asciiValues)) =
    ((List.range first.length).mapM (fun index =>
      reconstruct ((first :: rest).map (fun share => share.get? index)))).map
      asciiArrayToString
  cases (List.range first.length).mapM (fun index =>
      reconstruct ((first :: rest).map (fun share => share.get? index))) with
  | error e => rfl
  | ok v => rfl

theorem reconstructString_eq (P : CryptoPlatform) (toks : List (List Char))
    (pw : List Char) :
    reconstructString P toks pw =
      (toks.mapM (fun share => decryptShare P share pw)) >>= reconstructBundles := rfl

/-! ### The full pipeline round trip -/

theorem cast_ne_of_small {a b : Int} (ha0 : 0 ≤ a) (ha1 : a < 211) (hb0 : 0 ≤ b)
    (hb1 : b < 211) (h : a ≠ b) : (a : F) ≠ (b : F) :=
  fun hc => h (eq_of_cast_eq ha0 ha1 hb0 hb1 hc)

theorem jsFromCharCode_small (c : Char) (h : c.toNat < 211) :
    jsFromCharCode (some ((c.toNat : Nat) : Int)) = c := by
  show Char.ofNat ((((c.toNat : Nat) : Int)) % 65536).toNat = c
  have h1 : (((c.toNat : Nat) : Int)) % 65536 = ((c.toNat : Nat) : Int) :=
    Int.emod_eq_of_lt (by positivity) (by exact_mod_cast (by omega : c.toNat < 65536))
  rw [h1, Int.toNat_natCast]
  exact Char.ofNat_toNat c

theorem pipeline_roundtrip (P : CryptoPlatform) (hP : GoodPlatform P)
    (secret : List Char) (hS : secret ≠ []) (hcode : ∀ c ∈ secret, c.toNat < 211)
    (N T : Nat) (hT : 1 ≤ T) (hTN : T ≤ N) (hN : N ≤ 10)
    (rand : Nat → Nat → Int) (hrand : ∀ k i, 0 ≤ rand k i ∧ rand k i < 211)
    (ivs : Nat → List Char) (pw : List Char)
    (sel : List Nat) (hnd : sel.Nodup) (hsellen : sel.length = T)
    (hmem : ∀ i ∈ sel, i < N) :
    reconstructString P
      (sel.map (fun i => (splitString P rand ivs secret N T pw).getD i [])) pw =
      .ok secret := by
  have hdec : ∀ i ∈ sel,
      decryptShare P ((splitString P rand ivs secret N T pw).getD i []) pw =
        .ok ((charBundle rand secret N T i).map (fun sh => sh.map some)) := by
    intro i hi
    have hblen := charBundle_length rand secret N T i
    have hb : charBundle rand secret N T i ≠ [] := by
      intro h0
      rw [h0] at hblen
      exact hS (List.length_eq_zero.mp hblen.symm)
    have hsh : ∀ sh ∈ charBundle rand secret N T i, sh ≠ [] := by
      intro sh hshm
      unfold charBundle at hshm
      obtain ⟨kv, _, rfl⟩ := List.mem_map.mp hshm
      rw [split_getD _ _ _ _ _ (hmem i hi)]
      simp
    rw [splitString_getD P rand ivs secret N T pw i (hmem i hi),
      decryptShare_encryptShare P hP _ _ _, parse_serialize _ hb hsh]
  have hms : (sel.map (fun i => (splitString P rand ivs secret N T pw).getD i [])).mapM
      (fun share => decryptShare P share pw) =
      .ok (sel.map (fun i => (charBundle rand secret N T i).map (fun sh => sh.map some))) :=
    mapM_map_ok _ _ _ sel hdec
  rw [reconstructString_eq, hms, except_bind_ok]
  cases sel with
  | nil =>
    rw [List.length_nil] at hsellen
    omega
  | cons i0 sel' =>
    have hmem0 : i0 < N := hmem i0 (by simp)
    rw [List.map_cons, reconstructBundles_cons]
    have hfl : ((charBundle rand secret N T i0).map (fun sh => sh.map some)).length =
        secret.length := by
      rw [List.length_map, charBundle_length]
    rw [hfl]
    have hpoint : ∀ k, k < secret.length → ∀ i, i < N →
        ((charBundle rand secret N T i).map (fun sh => sh.map some)).get? k =
        some [some ((i + 1 : Nat) : Int), some (evaluatePolynomial
          (generatePolynomial (T - 1) (((secret.getD k ' ').toNat : Nat) : Int) (rand k))
          ((i + 1 : Nat) : Int))] := by
      intro k hk' i hi
      have hkb : k < (charBundle rand secret N T i).length := by
        rw [charBundle_length]
        exact hk'
      rw [List.get?_eq_getElem?, List.getElem?_map, List.getElem?_eq_getElem hkb]
      have hgd := getD_eq_of_lt (charBundle rand secret N T i) k [] hkb
      rw [show (charBundle rand secret N T i)[k] =
          (charBundle rand secret N T i).getD k [] from hgd.symm]
      rw [charBundle_getD rand secret N T i k hk' hi]
      rfl
    have hrow : ∀ k ∈ List.range secret.length,
        reconstruct ((((charBundle rand secret N T i0).map (fun sh => sh.map some)) ::
          sel'.map (fun i => (charBundle rand secret N T i).map (fun sh => sh.map some))).map
          (fun share => share.get? k)) =
          .ok (some (((secret.getD k ' ').toNat : Nat) : Int)) := by
      intro k hk
      have hk' : k < secret.length := List.mem_range.mp hk
      have hrow_eq : (((charBundle rand secret N T i0).map (fun sh => sh.map some)) ::
          sel'.map (fun i => (charBundle rand secret N T i).map (fun sh => sh.map some))).map
          (fun share => share.get? k) =
          (((i0 :: sel').map (fun i => ((i + 1 : Nat) : Int))).map
            (fun x => (x, evaluatePolynomial
              (generatePolynomial (T - 1) (((secret.getD k ' ').toNat : Nat) : Int) (rand k))
              x))).map properPair := by
        conv_lhs => rw [List.map_cons, List.map_map]
        conv_rhs => rw [List.map_map, List.map_map, List.map_cons]
        congr 1
        · show ((charBundle rand secret N T i0).map (fun sh => sh.map some)).get? k = _
          rw [hpoint k hk' i0 hmem0]
          rfl
        · apply List.map_congr_left
          intro i hi'
          show ((charBundle rand secret N T i).map (fun sh => sh.map some)).get? k = _
          rw [hpoint k hk' i (hmem i (by simp [hi']))]
          rfl
      rw [hrow_eq]
      show interpolate _ (some 0) = _
      apply interpolate_nodes
      · exact generatePolynomial_nonneg _ _ _ (by positivity) (fun i => (hrand k i).1)
      · rw [show (generatePolynomial (T - 1) (((secret.getD k ' ').toNat : Nat) : Int)
          (rand k)).getD 0 0 = (((secret.getD k ' ').toNat : Nat) : Int) from rfl]
        positivity
      · rw [show (generatePolynomial (T - 1) (((secret.getD k ' ').toNat : Nat) : Int)
          (rand k)).getD 0 0 = (((secret.getD k ' ').toNat : Nat) : Int) from rfl]
        exact_mod_cast hcode _ (getD_mem hk' ' ')
      · simp [generatePolynomial]
      · intro x hx
        obtain ⟨i, _, rfl⟩ := List.mem_map.mp hx
        positivity
      · intro q hq q' hq' hqq'
        have hqlen : q < (i0 :: sel').length := by simpa using hq
        have hq'len : q' < (i0 :: sel').length := by simpa using hq'
        have hgq : ((i0 :: sel').map (fun i => ((i + 1 : Nat) : Int))).getD q 0 =
            (((i0 :: sel')[q] + 1 : Nat) : Int) := by
          rw [getD_eq_of_lt _ _ _ (by simpa using hq), List.getElem_map]
        have hgq' : ((i0 :: sel').map (fun i => ((i + 1 : Nat) : Int))).getD q' 0 =
            (((i0 :: sel')[q'] + 1 : Nat) : Int) := by
          rw [getD_eq_of_lt _ _ _ (by simpa using hq'), List.getElem_map]
        rw [hgq, hgq']
        have hvq : (i0 :: sel')[q] < N := hmem _ (List.getElem_mem hqlen)
        have hvq' : (i0 :: sel')[q'] < N := hmem _ (List.getElem_mem hq'len)
        have hne : (i0 :: sel')[q'] ≠ (i0 :: sel')[q] := by
          intro hc
          exact hqq' ((List.Nodup.getElem_inj_iff hnd).mp hc)
        apply cast_ne_of_small
        · positivity
        · exact_mod_cast (by omega : (i0 :: sel')[q'] + 1 < 211)
        · positivity
        · exact_mod_cast (by omega : (i0 :: sel')[q] + 1 < 211)
        · intro hc
          have : (i0 :: sel')[q'] + 1 = (i0 :: sel')[q] + 1 := by exact_mod_cast hc
          omega
      · rw [generatePolynomial_length, List.length_map]
        rw [List.length_cons] at hsellen ⊢
        omega
    rw [mapM_ok_of_forall _ (fun k => some (((secret.getD k ' ').toNat : Nat) : Int)) _ hrow]
    show Except.ok (asciiArrayToString ((List.range secret.length).map
      (fun k => some (((secret.getD k ' ').toNat : Nat) : Int)))) = Except.ok secret
    congr 1
    unfold asciiArrayToString
    rw [List.map_map]
    have hmc : ∀ k ∈ List.range secret.length,
        (jsFromCharCode ∘ (fun k => some (((secret.getD k ' ').toNat : Nat) : Int))) k =
          secret.getD k ' ' := fun k hk =>
      jsFromCharCode_small (secret.getD k ' ') (hcode _ (getD_mem (List.mem_range.mp hk) ' '))
    rw [List.map_congr_left hmc]
    exact map_range_getD secret ' '

/-! ### The toy platform is a good platform -/

theorem toyDecode_toyEncode (b : List Char) : toyDecode (toyEncode b) = b := by
  induction b with
  | nil => rfl
  | cons c rest ih =>
    show toyDecode ((if c = ':' then ['C', 'x'] else ['D', c]) ++ toyEncode rest) = c :: rest
    by_cases h : c = ':'
    · subst h
      rw [if_pos rfl]
      show (if ('C' : Char) = 'C' then ':' else 'x') :: toyDecode (toyEncode rest) = _
      rw [if_pos rfl, ih]
    · rw [if_neg h]
      show (if ('D' : Char) = 'C' then ':' else c) :: toyDecode (toyEncode rest) = _
      rw [if_neg (by decide), ih]

theorem toyEncode_no_colon (b : List Char) : ':' ∉ toyEncode b := by
  intro hm
  unfold toyEncode at hm
  rw [List.mem_flatMap] at hm
  obtain ⟨c, _, hc⟩ := hm
  by_cases h : c = ':'
  · rw [if_pos h] at hc
    simp at hc
  · rw [if_neg h] at hc
    rcases List.mem_cons.mp hc with h1 | h1
    · cases h1
    · rw [List.mem_singleton] at h1
      exact h h1.symm

theorem toyPlatform_good : GoodPlatform toyPlatform :=
  ⟨fun _ _ _ => rfl, toyDecode_toyEncode, toyEncode_no_colon⟩

/-! ### Error analysis: the only exception `interpolate` can raise on
well-formed shares is `NoInverse` -/

theorem subtract_self (a : Int) : subtract a a = 0 := by
  unfold subtract prime
  rw [sub_self, Int.zero_tmod, zero_add, Int.tmod_self]

theorem inversemod_zero_error : inversemod 0 prime = .error .noInverse :=
  (inversemod_error_iff 0).2 (by simp)

theorem inversemod_cases (a m : Int) :
    inversemod a m = .error .noInverse ∨ ∃ b, inversemod a m = .ok b := by
  unfold inversemod
  by_cases h : (egcdLoop ((a.tmod m + m).tmod m) m 1 0 0 1).1 ≠ 1
  · left
    rw [if_pos h]
  · right
    exact ⟨_, by rw [if_neg h]⟩

theorem except_pure {ε α : Type} (a : α) : (pure a : Except ε α) = Except.ok a := rfl

theorem jsDivide_cases (a b : JsNum) :
    jsDivide a b = .error .noInverse ∨ ∃ v, jsDivide a b = .ok v := by
  cases b with
  | none => left; rfl
  | some b' =>
    have hform : jsDivide a (some b') =
        (inversemod b' prime).map (fun i => jsMul a (some i)) := rfl
    rw [hform]
    rcases inversemod_cases b' prime with h | ⟨v, h⟩
    · left
      rw [h]
      rfl
    · right
      exact ⟨_, by rw [h]; rfl⟩

theorem interpTermStep_proper (x : JsNum) (shares : List JsShare) (i j : Nat)
    (si : List JsNum) (t : JsNum) (p : Int × Int)
    (hj : shares.getD j none = properPair p) (hij : i ≠ j) :
    interpTermStep x shares i si t j =
      (jsDivide (jsSub x (some p.1)) (jsSub (jsIndex si 0) (some p.1)) >>=
        fun d => pure (jsMul t d)) := by
  unfold interpTermStep
  rw [if_pos hij, hj]
  rfl

theorem interpOuterStep_proper (x : JsNum) (shares : List JsShare) (racc : JsNum) (i : Nat)
    (p : Int × Int) (hp : shares.getD i none = properPair p) :
    interpOuterStep x shares racc i =
      ((List.range shares.length).foldlM
        (interpTermStep x shares i [some p.1, some p.2]) (some p.2) >>=
        fun term => pure (jsAdd racc term)) := by
  unfold interpOuterStep
  rw [hp]
  rfl

theorem interpTermStep_fold_cases (x : JsNum) (l : List (Int × Int)) (i : Nat)
    (si : List JsNum) :
    ∀ (js : List Nat) (t : JsNum), (∀ j ∈ js, j < l.length) →
      (js.foldlM (interpTermStep x (l.map properPair) i si) t = .error .noInverse ∨
        ∃ v, js.foldlM (interpTermStep x (l.map properPair) i si) t = .ok v) := by
  intro js
  induction js with
  | nil =>
    intro t _
    right
    exact ⟨t, rfl⟩
  | cons j js ih =>
    intro t hmem
    rw [List.foldlM_cons]
    have hstep : interpTermStep x (l.map properPair) i si t j = .error .noInverse ∨
        ∃ v, interpTermStep x (l.map properPair) i si t j = .ok v := by
      by_cases hij : i ≠ j
      · rw [interpTermStep_proper x _ i j si t (l.getD j (0, 0))
          (getD_map_properPair l j (hmem j (by simp))) hij]
        rcases jsDivide_cases (jsSub x (some (l.getD j (0, 0)).1))
            (jsSub (jsIndex si 0) (some (l.getD j (0, 0)).1)) with h | ⟨v, h⟩
        · left
          rw [h, except_bind_error]
        · right
          rw [h, except_bind_ok]
          exact ⟨_, rfl⟩
      · unfold interpTermStep
        rw [if_neg hij]
        right
        exact ⟨t, rfl⟩
    rcases hstep with h | ⟨v, h⟩
    · left
      rw [h, except_bind_error]
    · rw [h, except_bind_ok]
      exact ih v (fun j hj => hmem j (by simp [hj]))

theorem interpOuterStep_fold_cases (x : JsNum) (l : List (Int × Int)) :
    ∀ (is : List Nat) (racc : JsNum), (∀ i ∈ is, i < l.length) →
      (is.foldlM (interpOuterStep x (l.map properPair)) racc = .error .noInverse ∨
        ∃ v, is.foldlM (interpOuterStep x (l.map properPair)) racc = .ok v) := by
  intro is
  induction is with
  | nil =>
    intro racc _
    right
    exact ⟨racc, rfl⟩
  | cons i is ih =>
    intro racc hmem
    rw [List.foldlM_cons]
    rw [interpOuterStep_proper x _ racc i (l.getD i (0, 0))
      (getD_map_properPair l i (hmem i (by simp)))]
    have hbound : ∀ j ∈ List.range (l.map properPair).length, j < l.length := by
      intro j hj
      simpa using List.mem_range.mp hj
    rcases interpTermStep_fold_cases x l i
        [some (l.getD i (0, 0)).1, some (l.getD i (0, 0)).2]
        (List.range (l.map properPair).length) (some (l.getD i (0, 0)).2) hbound with
        h | ⟨v, h⟩
    · left
      rw [h, except_bind_error, except_bind_error]
    · rw [h, except_bind_ok, except_pure, except_bind_ok]
      exact ih _ (fun j hj => hmem j (by simp [hj]))

theorem interpolate_proper_cases (x : JsNum) (l : List (Int × Int)) :
    interpolate (l.map properPair) x = .error .noInverse ∨
      ∃ v, interpolate (l.map properPair) x = .ok v := by
  unfold interpolate
  exact interpOuterStep_fold_cases x l (List.range (l.map properPair).length) (some 0)
    (fun i hi => by simpa using List.mem_range.mp hi)

theorem foldlM_ok_forall {α β : Type} (f : β → α → Except JsErr β) (l : List α) (b : β)
    (r : β) (h : l.foldlM f b = .ok r) : ∀ a ∈ l, ∃ acc res, f acc a = .ok res := by
  induction l generalizing b with
  | nil =>
    intro a ha
    cases ha
  | cons x xs ih =>
    rw [List.foldlM_cons] at h
    cases hfx : f b x with
    | error e =>
      rw [hfx, except_bind_error] at h
      cases h
    | ok b' =>
      rw [hfx, except_bind_ok] at h
      intro a ha
      rcases List.mem_cons.mp ha with rfl | ha'
      · exact ⟨b, b', hfx⟩
      · exact ih b' h a ha'

/-- Duplicate `x` values always make `reconstruct` throw `NoInverse`. -/
theorem reconstruct_duplicate (l : List (Int × Int)) (i j : Nat)
    (hi : i < l.length) (hj : j < l.length) (hij : i ≠ j)
    (hx : (l.getD i (0, 0)).1 = (l.getD j (0, 0)).1) :
    reconstruct (l.map properPair) = .error .noInverse := by
  rcases interpolate_proper_cases (some 0) l with herr | ⟨v, hok⟩
  · exact herr
  · exfalso
    unfold interpolate at hok
    obtain ⟨racc, res, hstep⟩ := foldlM_ok_forall _ _ _ _ hok i
      (by rw [List.length_map] at *; exact List.mem_range.mpr hi)
    rw [interpOuterStep_proper (some 0) _ racc i (l.getD i (0, 0))
      (getD_map_properPair l i hi)] at hstep
    cases hinner : (List.range (l.map properPair).length).foldlM
        (interpTermStep (some 0) (l.map properPair) i
          [some (l.getD i (0, 0)).1, some (l.getD i (0, 0)).2])
        (some (l.getD i (0, 0)).2) with
    | error e =>
      rw [hinner, except_bind_error] at hstep
      cases hstep
    | ok t =>
      obtain ⟨tacc, tres, htstep⟩ := foldlM_ok_forall _ _ _ _ hinner j
        (by rw [List.length_map]; exact List.mem_range.mpr hj)
      rw [interpTermStep_proper (some 0) _ i j _ tacc (l.getD j (0, 0))
        (getD_map_properPair l j hj) hij] at htstep
      have hden : jsSub (jsIndex [some (l.getD i (0, 0)).1, some (l.getD i (0, 0)).2] 0)
          (some (l.getD j (0, 0)).1) = some 0 := by
        rw [jsIndex_zero]
        show some (subtract (l.getD i (0, 0)).1 (l.getD j (0, 0)).1) = some 0
        rw [hx, subtract_self]
      rw [hden] at htstep
      have hdiv : jsDivide (jsSub (some 0) (some (l.getD j (0, 0)).1)) (some 0) =
          .error .noInverse := by
        have hform : jsDivide (jsSub (some 0) (some (l.getD j (0, 0)).1)) (some 0) =
            (inversemod 0 prime).map
              (fun iv => jsMul (jsSub (some 0) (some (l.getD j (0, 0)).1)) (some iv)) := rfl
        rw [hform, inversemod_zero_error]
        rfl
      rw [hdiv, except_bind_error] at htstep
      cases htstep

/-! ### The degenerate bundles of an empty secret -/

theorem reconstruct_degenerate (n : Nat) (h : 2 ≤ n) :
    reconstruct (List.replicate n (some [some 0])) = .error .noInverse := by
  obtain ⟨m, rfl⟩ : ∃ m, n = m + 2 := ⟨n - 2, by omega⟩
  unfold reconstruct interpolate
  rw [List.length_replicate]
  have hr : List.range (m + 2) = 0 :: 1 :: (List.range m).map (fun x => x.succ.succ) := by
    rw [List.range_succ_eq_map, List.range_succ_eq_map]
    simp [List.map_map]
  rw [hr, List.foldlM_cons]
  have hstep0 : interpOuterStep (some 0) (List.replicate (m + 2) (some [some 0]))
      (some 0) 0 = .error .noInverse := by
    unfold interpOuterStep
    rw [show (List.replicate (m + 2) (some [some 0] : JsShare)).getD 0 none =
      some [some 0] from rfl]
    have hinner : (List.range (List.replicate (m + 2)
        (some [some 0] : JsShare)).length).foldlM
        (interpTermStep (some 0) (List.replicate (m + 2) (some [some 0])) 0 [some 0])
        (jsIndex [some 0] 1) = .error .noInverse := by
      rw [List.length_replicate, hr, List.foldlM_cons]
      have h0 : interpTermStep (some 0) (List.replicate (m + 2) (some [some 0])) 0 [some 0]
          (jsIndex [some 0] 1) 0 = .ok (jsIndex [some 0] 1) := by
        unfold interpTermStep
        rw [if_neg (by simp)]
        rfl
      rw [h0, except_bind_ok, List.foldlM_cons]
      have h1 : interpTermStep (some 0) (List.replicate (m + 2) (some [some 0])) 0 [some 0]
          (jsIndex [some 0] 1) 1 = .error .noInverse := by
        unfold interpTermStep
        rw [if_pos (by omega)]
        rw [show (List.replicate (m + 2) (some [some 0] : JsShare)).getD 1 none =
          some [some 0] from rfl]
        show (jsDivide (jsSub (some 0) (jsIndex [some (0 : Int)] 0))
          (jsSub (jsIndex [some (0 : Int)] 0) (jsIndex [some (0 : Int)] 0)) >>=
            fun d => pure (jsMul (jsIndex [some (0 : Int)] 1) d)) = _
        rw [show jsSub (some 0) (jsIndex [some (0 : Int)] 0) = some 0 from rfl,
          show jsSub (jsIndex [some (0 : Int)] 0) (jsIndex [some (0 : Int)] 0) =
            some 0 from rfl]
        show ((inversemod 0 prime).map (fun iv => jsMul (some 0) (some iv)) >>=
          fun d => pure (jsMul (jsIndex [some (0 : Int)] 1) d)) = _
        rw [inversemod_zero_error]
        rfl
      rw [h1, except_bind_error]
    show ((List.range (List.replicate (m + 2)
        (some [some 0] : JsShare)).length).foldlM
        (interpTermStep (some 0) (List.replicate (m + 2) (some [some 0])) 0 [some 0])
        (jsIndex [some 0] 1) >>= fun term => pure (jsAdd (some 0) term)) =
      Except.error JsErr.noInverse
    rw [hinner, except_bind_error]
  rw [hstep0, except_bind_error]

theorem charBundle_empty (rand : Nat → Nat → Int) (N T i : Nat) :
    charBundle rand [] N T i = [] := rfl

theorem decrypt_empty_token (P : CryptoPlatform) (hP : GoodPlatform P) (iv pw : List Char) :
    decryptShare P (encryptShare P iv [] pw) pw = .ok [[some 0]] := by
  rw [decryptShare_encryptShare P hP]
  rfl

theorem splitString_empty (P : CryptoPlatform) (rand : Nat → Nat → Int)
    (ivs : Nat → List Char) (N T : Nat) (pw : List Char) :
    splitString P rand ivs [] N T pw =
      (List.range N).map (fun i => encryptShare P (ivs i) [] pw) := by
  apply List.ext_getElem
  · rw [splitString_length, List.length_map, List.length_range]
  · intro i h1 h2
    rw [List.getElem_map, List.getElem_range]
    have hi : i < N := by
      rw [splitString_length] at h1
      exact h1
    have hgd := splitString_getD P rand ivs [] N T pw i hi
    rw [getD_eq_of_lt _ _ _ h1] at hgd
    rw [hgd, charBundle_empty]

theorem reconstructBundles_single_degenerate :
    reconstructBundles [[[some 0]]] = .ok [Char.ofNat 0] := rfl

theorem reconstructBundles_replicate_degenerate (n : Nat) (h : 2 ≤ n) :
    reconstructBundles (List.replicate n [[some 0]]) = .error .noInverse := by
  obtain ⟨m, rfl⟩ : ∃ m, n = m + 1 := ⟨n - 1, by omega⟩
  rw [List.replicate_succ, reconstructBundles_cons]
  have hrows : (([[some 0]] : List (List JsNum)) :: List.replicate m [[some 0]]).map
      (fun share => share.get? 0) = List.replicate (m + 1) (some [some 0]) := by
    rw [List.map_cons, List.map_replicate, List.replicate_succ]
    rfl
  have hrange : List.range ([[some (0 : Int)]] : List (List JsNum)).length = [0] := rfl
  rw [hrange, List.mapM_cons]
  rw [show reconstruct ((([[some 0]] : List (List JsNum)) :: List.replicate m [[some 0]]).map
      (fun share => share.get? 0)) = Except.error JsErr.noInverse from by
    rw [hrows]; exact reconstruct_degenerate (m + 1) (by omega)]
  rfl

/-! ### Facts for the first-bundle-length invariant -/

theorem mapM_congr {α β : Type} (f g : α → Except JsErr β) (l : List α)
    (h : ∀ a ∈ l, f a = g a) : l.mapM f = l.mapM g := by
  induction l with
  | nil => rfl
  | cons a l ih =>
    rw [List.mapM_cons, List.mapM_cons, h a (by simp), ih (fun a ha => h a (by simp [ha]))]

theorem reconstructBundles_ok_length (first : List (List JsNum))
    (rest : List (List (List JsNum))) (s : List Char)
    (h : reconstructBundles (first :: rest) = .ok s) : s.length = first.length := by
  rw [reconstructBundles_cons] at h
  cases hm : (List.range first.length).mapM (fun index =>
      reconstruct ((first :: rest).map (fun share => share.get? index))) with
  | error e =>
    rw [hm] at h
    cases h
  | ok vals =>
    rw [hm] at h
    have hs : asciiArrayToString vals = s := by
      cases h
      rfl
    rw [← hs]
    unfold asciiArrayToString
    rw [List.length_map, mapM_ok_length _ _ _ hm, List.length_range]

theorem reconstructBundles_truncate (first : List (List JsNum))
    (rest : List (List (List JsNum))) :
    reconstructBundles (first :: rest) =
      reconstructBundles (first :: rest.map (fun b => b.take first.length)) := by
  rw [reconstructBundles_cons, reconstructBundles_cons]
  congr 1
  apply mapM_congr
  intro k hk
  have hk' : k < first.length := List.mem_range.mp hk
  congr 1
  rw [List.map_cons, List.map_cons, List.map_map]
  congr 1
  apply List.map_congr_left
  intro b _
  show b.get? k = (b.take first.length).get? k
  rw [List.get?_take hk']

theorem reconstructBundles_short : reconstructBundles [[[some 1, some 5]], []] =
    .error .typeError := rfl

/-! ### Facts about `decryptShare` error behaviour -/

theorem decryptShare_never_malformed (P : CryptoPlatform) (s pw : List Char) :
    decryptShare P s pw ≠ .error .malformedShard := by
  intro h
  unfold decryptShare at h
  cases hg : ((jsSplit ':' s).map P.b64decode).get? 1 with
  | none =>
    rw [hg] at h
    cases h
  | some d =>
    rw [hg] at h
    have h' : (match P.aeadDec pw (((jsSplit ':' s).map P.b64decode).getD 0 []) d with
        | some decodedData => Except.ok (parseBundle decodedData)
        | none => Except.error JsErr.authFailure) = Except.error JsErr.malformedShard := h
    cases ha : P.aeadDec pw (((jsSplit ':' s).map P.b64decode).getD 0 []) d with
    | none =>
      rw [ha] at h'
      cases h'
    | some pt =>
      rw [ha] at h'
      cases h'

theorem decryptShare_no_colon (P : CryptoPlatform) (s pw : List Char) (h : ':' ∉ s) :
    decryptShare P s pw = .error .typeError := by
  unfold decryptShare
  rw [jsSplit_not_mem ':' s h]
  rfl

theorem tmod_small (d : Int) (h1 : -211 < d) (h2 : d < 211) : d.tmod 211 = d := by
  rcases le_or_lt 0 d with h | h
  · exact Int.tmod_eq_of_lt h h2
  · have hneg : (-d).tmod 211 = -d := Int.tmod_eq_of_lt (by omega) (by omega)
    have h3 := neg_tmod d 211
    omega

theorem split_threshold_one (v : Int) (hv0 : 0 ≤ v) (hv1 : v < 211) (n : Nat)
    (rand : Nat → Int) (i : Nat) (hi : i < n) :
    (split v n 1 rand).getD i [] = [((i + 1 : Nat) : Int), v] := by
  rw [split_getD _ _ _ _ _ hi]
  have hpoly : generatePolynomial (1 - 1) v rand = [v] := by
    simp [generatePolynomial]
  rw [hpoly]
  rw [show evaluatePolynomial [v] ((i + 1 : Nat) : Int) =
    add (multiply 0 ((i + 1 : Nat) : Int)) v from rfl]
  rw [show multiply 0 ((i + 1 : Nat) : Int) = 0 from by
    unfold multiply prime
    rw [zero_mul, Int.zero_tmod]]
  rw [show add 0 v = v.tmod 211 from by
    unfold add prime
    rw [zero_add]]
  rw [Int.tmod_eq_of_lt hv0 hv1]

/-! ## The claims -/

/-- Claim C1, as stated, is false for the empty secret: with `N = T = 1` the
pipeline on `S = ""` returns the one-character string `"\x00"` instead of
`""`. -/
theorem C1_counterexample :
    reconstructString toyPlatform
      (splitString toyPlatform (fun _ _ => 0) (fun _ => []) [] 1 1 []) [] =
      .ok [Char.ofNat 0] ∧ ([Char.ofNat 0] : List Char) ≠ [] :=
  ⟨rfl, by decide⟩

/-- Claim C1 (amended to nonempty secrets): for every platform satisfying the
AEAD/base64 round-trip contract, every nonempty secret whose code points are
below 211, every `1 ≤ T ≤ N ≤ 10`, every password, every choice of the
random polynomial coefficients (the values `Math.floor(Math.random()*prime)`
can take) and nonces, `reconstructString` on any `T`-element subset of the
tokens of `splitString` (in any order) returns the secret exactly. -/
theorem C1_roundtrip_nonempty (P : CryptoPlatform) (hP : GoodPlatform P)
    (secret : List Char) (hS : secret ≠ []) (hcode : ∀ c ∈ secret, c.toNat < 211)
    (N T : Nat) (hT : 1 ≤ T) (hTN : T ≤ N) (hN : N ≤ 10)
    (rand : Nat → Nat → Int) (hrand : ∀ k i, 0 ≤ rand k i ∧ rand k i < 211)
    (ivs : Nat → List Char) (pw : List Char)
    (sel : List Nat) (hnd : sel.Nodup) (hsellen : sel.length = T)
    (hmem : ∀ i ∈ sel, i < N) :
    reconstructString P
      (sel.map (fun i => (splitString P rand ivs secret N T pw).getD i [])) pw =
      .ok secret :=
  pipeline_roundtrip P hP secret hS hcode N T hT hTN hN rand hrand ivs pw sel hnd
    hsellen hmem

/-- Claim C1 witness: the amended round trip at a concrete instance
(`S = "AB"`, `N = T = 2`, tokens supplied in reversed order). -/
theorem C1_witness :
    GoodPlatform toyPlatform ∧ (['A', 'B'] : List Char) ≠ [] ∧
    (∀ c ∈ (['A', 'B'] : List Char), c.toNat < 211) ∧
    (∀ _k _i : Nat, (0 : Int) ≤ 7 ∧ (7 : Int) < 211) ∧
    ([1, 0] : List Nat).Nodup ∧ ([1, 0] : List Nat).length = 2 ∧
    (∀ i ∈ ([1, 0] : List Nat), i < 2) ∧
    reconstructString toyPlatform
      (([1, 0] : List Nat).map (fun i =>
        (splitString toyPlatform (fun _ _ => 7) (fun _ => ['v']) ['A', 'B'] 2 2
          ['p']).getD i [])) ['p'] = .ok ['A', 'B'] :=
  ⟨toyPlatform_good, by decide, by decide, fun _ _ => ⟨by norm_num, by norm_num⟩,
    by decide, by decide, by decide,
    C1_roundtrip_nonempty toyPlatform toyPlatform_good ['A', 'B'] (by decide) (by decide)
      2 2 (by norm_num) (by norm_num) (by norm_num) (fun _ _ => 7)
      (fun _ _ => ⟨by norm_num, by norm_num⟩) (fun _ => ['v']) ['p'] [1, 0]
      (by decide) (by decide) (by decide)⟩

/-- Claim C2, as stated, is false: a token with no colon does not fail with
`MalformedShard`; the code reaches AEAD decryption with an `undefined`
ciphertext and throws a `TypeError`. -/
theorem C2_counterexample :
    decryptShare toyPlatform ['x', 'y'] [] = Except.error JsErr.typeError ∧
    JsErr.typeError ≠ JsErr.malformedShard :=
  ⟨rfl, by decide⟩

/-- Claim C2 (amended): `decryptShare` performs no token-format validation
and can never fail with `MalformedShard`; when the colon is missing it fails
with a `TypeError` (AEAD decryption invoked with an `undefined` second
half), and otherwise it base64-decodes leniently and proceeds to AEAD
decryption regardless of base64 validity. -/
theorem C2_decrypt_malformed (P : CryptoPlatform) (s pw : List Char) :
    decryptShare P s pw ≠ Except.error JsErr.malformedShard ∧
    (':' ∉ s → decryptShare P s pw = Except.error JsErr.typeError) :=
  ⟨decryptShare_never_malformed P s pw, decryptShare_no_colon P s pw⟩

/-- Claim C2 witness: the colonless token `"abc"` yields a `TypeError`. -/
theorem C2_witness :
    (':' ∉ (['a', 'b', 'c'] : List Char)) ∧
    decryptShare toyPlatform ['a', 'b', 'c'] [] = Except.error JsErr.typeError :=
  ⟨by decide, (C2_decrypt_malformed toyPlatform ['a', 'b', 'c'] []).2 (by decide)⟩

/-- Claim C3: a share list containing two shares with the same `x` value
makes `reconstruct` (Lagrange interpolation at `x = 0`) fail with
`NoInverse`, because the denominator `x_i − x_j` is `0`. -/
theorem C3_duplicate_x (shares : List (Int × Int)) (i j : Nat)
    (hi : i < shares.length) (hj : j < shares.length) (hij : i ≠ j)
    (hx : (shares.getD i (0, 0)).1 = (shares.getD j (0, 0)).1) :
    reconstruct (shares.map properPair) = Except.error JsErr.noInverse :=
  reconstruct_duplicate shares i j hi hj hij hx

/-- Claim C3 witness: shares `(1,5)` and `(1,7)` share `x = 1`. -/
theorem C3_witness :
    (0 : Nat) < ([((1 : Int), (5 : Int)), (1, 7)]).length ∧
    (1 : Nat) < ([((1 : Int), (5 : Int)), (1, 7)]).length ∧
    (0 : Nat) ≠ 1 ∧
    (([((1 : Int), (5 : Int)), (1, 7)]).getD 0 (0, 0)).1 =
      (([((1 : Int), (5 : Int)), (1, 7)]).getD 1 (0, 0)).1 ∧
    reconstruct (([((1 : Int), (5 : Int)), (1, 7)]).map properPair) =
      Except.error JsErr.noInverse :=
  ⟨by decide, by decide, by decide, by decide,
    C3_duplicate_x [(1, 5), (1, 7)] 0 1 (by decide) (by decide) (by decide) (by decide)⟩

/-- Claim C4: `inversemod(a, 211)` fails with `NoInverse` if and only if
`a ≡ 0 (mod 211)`, and otherwise returns the unique `b ∈ [0, 211)` with
`a·b ≡ 1 (mod 211)`. -/
theorem C4_inversemod_spec (a : Int) :
    (inversemod a prime = Except.error JsErr.noInverse ↔ a % 211 = 0) ∧
    (∀ b, inversemod a prime = Except.ok b →
      0 ≤ b ∧ b < 211 ∧ (a * b) % 211 = 1 ∧
        ∀ c, 0 ≤ c → c < 211 → (a * c) % 211 = 1 → c = b) := by
  have hzero : ((a : F) = 0) ↔ a % 211 = 0 := by
    rw [ZMod.intCast_zmod_eq_zero_iff_dvd]
    constructor
    · intro h
      have h' : (211 : Int) ∣ a := by exact_mod_cast h
      omega
    · intro h
      have h' : (211 : Int) ∣ a := by omega
      exact_mod_cast h'
  constructor
  · rw [inversemod_error_iff]
    exact hzero
  · intro b hb
    have hne : (a : F) ≠ 0 := by
      intro h0
      rw [← inversemod_error_iff] at h0
      rw [hb] at h0
      cases h0
    obtain ⟨b', hb', h0, h1, hmul⟩ := inversemod_ok hne
    rw [hb] at hb'
    have hbb : b = b' := by
      injection hb'
    subst hbb
    have hcastb : ((a * b : Int) : F) = ((1 : Int) : F) := by
      push_cast
      rw [mul_comm]
      exact_mod_cast hmul
    refine ⟨h0, h1, ?_, ?_⟩
    · rw [ZMod.intCast_eq_intCast_iff'] at hcastb
      simpa using hcastb
    · intro c hc0 hc1 hc
      have hcastc : ((a * c : Int) : F) = ((1 : Int) : F) := by
        rw [ZMod.intCast_eq_intCast_iff']
        simpa using hc
      push_cast at hcastc hcastb
      have heq : (a : F) * (c : F) = (a : F) * (b : F) := by
        rw [hcastc, hcastb]
      exact eq_of_cast_eq hc0 hc1 h0 h1 (mul_left_cancel₀ hne heq)

/-- Claim C4 witness: `inversemod 422 211` fails (`422 ≡ 0 (mod 211)`). -/
theorem C4_witness :
    (422 : Int) % 211 = 0 ∧ inversemod 422 prime = Except.error JsErr.noInverse :=
  ⟨by decide, (C4_inversemod_spec 422).1.mpr (by decide)⟩

/-- Claim C5: reconstructing from only `T − 1` of the shares of a valid
split (threshold `T ≥ 2`, pairwise-distinct share indices below `N ≤ 10`)
never errors: `reconstruct` returns a plain field element in `[0, 211)` —
the engine has no sufficiency check and the `NoInverse` branch is
unreachable on distinct `x` values. -/
theorem C5_too_few_shares (v : Int) (hv0 : 0 ≤ v) (hv1 : v < 211)
    (N T : Nat) (hT : 2 ≤ T) (hTN : T ≤ N) (hN : N ≤ 10)
    (rand : Nat → Int) (hrand : ∀ i, 0 ≤ rand i)
    (sel : List Nat) (hnd : sel.Nodup) (hsellen : sel.length = T - 1)
    (hmem : ∀ i ∈ sel, i < N) :
    ∃ r, reconstruct ((sel.map (fun i => (split v N T rand).getD i [])).map
        (fun sh => some (sh.map some))) = .ok (some r) ∧ 0 ≤ r ∧ r < 211 := by
  have hform : (sel.map (fun i => (split v N T rand).getD i [])).map
      (fun sh => (some (sh.map some) : JsShare)) =
      (sel.map (fun i => (((i + 1 : Nat) : Int),
        evaluatePolynomial (generatePolynomial (T - 1) v rand)
          ((i + 1 : Nat) : Int)))).map properPair := by
    rw [List.map_map, List.map_map]
    apply List.map_congr_left
    intro i hi
    show (some (((split v N T rand).getD i []).map some) : JsShare) = _
    rw [split_getD _ _ _ _ _ (hmem i hi)]
    rfl
  have hy : ∀ p ∈ sel.map (fun i => (((i + 1 : Nat) : Int),
      evaluatePolynomial (generatePolynomial (T - 1) v rand) ((i + 1 : Nat) : Int))),
      0 ≤ p.2 ∧ p.2 < 211 := by
    intro p hp
    obtain ⟨i, _, rfl⟩ := List.mem_map.mp hp
    exact evaluatePolynomial_range _ _
      (generatePolynomial_nonneg _ _ _ hv0 hrand) (by positivity)
  have hden : ∀ q, q < (sel.map (fun i => (((i + 1 : Nat) : Int),
        evaluatePolynomial (generatePolynomial (T - 1) v rand)
          ((i + 1 : Nat) : Int)))).length →
      ∀ q', q' < (sel.map (fun i => (((i + 1 : Nat) : Int),
        evaluatePolynomial (generatePolynomial (T - 1) v rand)
          ((i + 1 : Nat) : Int)))).length → q' ≠ q →
      ((((sel.map (fun i => (((i + 1 : Nat) : Int),
        evaluatePolynomial (generatePolynomial (T - 1) v rand)
          ((i + 1 : Nat) : Int)))).getD q' (0, 0)).1 : Int) : F) ≠
      ((((sel.map (fun i => (((i + 1 : Nat) : Int),
        evaluatePolynomial (generatePolynomial (T - 1) v rand)
          ((i + 1 : Nat) : Int)))).getD q (0, 0)).1 : Int) : F) := by
    intro q hq q' hq' hqq'
    rw [List.length_map] at hq hq'
    rw [getD_eq_of_lt _ _ _ (by simpa using hq'), List.getElem_map,
      getD_eq_of_lt _ _ _ (by simpa using hq), List.getElem_map]
    dsimp only
    have hvq : sel[q] < N := hmem _ (List.getElem_mem hq)
    have hvq' : sel[q'] < N := hmem _ (List.getElem_mem hq')
    have hne : sel[q'] ≠ sel[q] := by
      intro hc
      exact hqq' ((List.Nodup.getElem_inj_iff hnd).mp hc)
    apply cast_ne_of_small
    · positivity
    · exact_mod_cast (by omega : sel[q'] + 1 < 211)
    · positivity
    · exact_mod_cast (by omega : sel[q] + 1 < 211)
    · intro hc
      have : sel[q'] + 1 = sel[q] + 1 := by exact_mod_cast hc
      omega
  rw [hform]
  unfold reconstruct
  obtain ⟨r, hok, hr0, hr1, _⟩ := interpolate_proper 0
    (sel.map (fun i => (((i + 1 : Nat) : Int),
      evaluatePolynomial (generatePolynomial (T - 1) v rand)
        ((i + 1 : Nat) : Int)))) hy hden
  exact ⟨r, hok, hr0, hr1⟩

/-- Claim C5 witness: `v = 5` split with `N = T = 2`, reconstructing from
only the first share. -/
theorem C5_witness :
    ∃ r, reconstruct ((([0] : List Nat).map
        (fun i => (split 5 2 2 (fun _ => 3)).getD i [])).map
        (fun sh => some (sh.map some))) = .ok (some r) ∧ 0 ≤ r ∧ r < 211 :=
  C5_too_few_shares 5 (by norm_num) (by norm_num) 2 2 le_rfl le_rfl (by norm_num)
    (fun _ => 3) (fun _ => by norm_num) [0] (by decide) rfl (by decide)

/-- Claim C6, as stated, is false for the empty secret: with `T = 1` and
`N = 2`, a single token of the empty secret reconstructs to the
one-character string `"\x00"`, not to the secret `""`. -/
theorem C6_counterexample :
    reconstructString toyPlatform
      [(splitString toyPlatform (fun _ _ => 0) (fun _ => []) [] 2 1 []).getD 0 []] [] =
      .ok [Char.ofNat 0] ∧ ([Char.ofNat 0] : List Char) ≠ [] :=
  ⟨rfl, by decide⟩

/-- Claim C6 (amended to nonempty secrets): with threshold `1`, every share
of `split(v, n, 1)` has `y` component exactly `v` (for canonical `v`), and
for every nonempty secret with code points below 211 each individual token
of `splitString(S, N, 1, pw)` reconstructs alone, with the correct
password, to `S`. -/
theorem C6_threshold_one :
    (∀ v : Int, 0 ≤ v → v < 211 → ∀ n : Nat, ∀ rand : Nat → Int, ∀ i : Nat, i < n →
      (split v n 1 rand).getD i [] = [((i + 1 : Nat) : Int), v]) ∧
    (∀ P : CryptoPlatform, GoodPlatform P →
      ∀ secret : List Char, secret ≠ [] → (∀ c ∈ secret, c.toNat < 211) →
      ∀ N : Nat, 1 ≤ N → N ≤ 10 →
      ∀ rand : Nat → Nat → Int, (∀ k i, 0 ≤ rand k i ∧ rand k i < 211) →
      ∀ ivs : Nat → List Char, ∀ pw : List Char, ∀ i : Nat, i < N →
      reconstructString P
        [(splitString P rand ivs secret N 1 pw).getD i []] pw = .ok secret) := by
  constructor
  · exact fun v hv0 hv1 n rand i hi => split_threshold_one v hv0 hv1 n rand i hi
  · intro P hP secret hS hcode N hN1 hN10 rand hrand ivs pw i hi
    have h := pipeline_roundtrip P hP secret hS hcode N 1 le_rfl hN1 hN10 rand hrand
      ivs pw [i] (List.nodup_singleton i) rfl
      (fun j hj => by rcases List.mem_singleton.mp hj with rfl; exact hi)
    exact h

/-- Claim C6 witness: the share equation at `v = 7`, `n = 3`, `i = 1`, and
the single-token reconstruction of `"A"` with `N = 2`, `T = 1`. -/
theorem C6_witness :
    (split 7 3 1 (fun _ => 9)).getD 1 [] = [((1 + 1 : Nat) : Int), 7] ∧
    reconstructString toyPlatform
      [(splitString toyPlatform (fun _ _ => 0) (fun _ => []) ['A'] 2 1 []).getD 1 []]
      [] = .ok ['A'] :=
  ⟨C6_threshold_one.1 7 (by norm_num) (by norm_num) 3 (fun _ => 9) 1 (by norm_num),
    C6_threshold_one.2 toyPlatform toyPlatform_good ['A'] (by decide) (by decide)
      2 (by norm_num) (by norm_num) (fun _ _ => 0)
      (fun _ _ => ⟨le_rfl, by norm_num⟩) (fun _ => []) [] 1 (by norm_num)⟩

/-- Claim C7: on canonical field elements, `add`, `subtract` and `multiply`
return exactly the value of `(a+b)`, `(a−b)` and `(a·b)` reduced modulo 211,
always in `[0, 211)`; `subtract` wraps negative differences forward. -/
theorem C7_field_ops (a b : Int) (ha0 : 0 ≤ a) (ha1 : a < 211) (hb0 : 0 ≤ b)
    (hb1 : b < 211) :
    add a b = (a + b) % 211 ∧ 0 ≤ add a b ∧ add a b < 211 ∧
    subtract a b = (a - b) % 211 ∧ 0 ≤ subtract a b ∧ subtract a b < 211 ∧
    multiply a b = (a * b) % 211 ∧ 0 ≤ multiply a b ∧ multiply a b < 211 := by
  have hadd : add a b = (a + b) % 211 := by
    unfold add prime
    exact Int.tmod_eq_emod (by omega) (by norm_num)
  have hsub : subtract a b = (a - b) % 211 := by
    unfold subtract prime
    rw [tmod_small (a - b) (by omega) (by omega)]
    rw [Int.tmod_eq_emod (by omega) (by norm_num)]
    omega
  have hmul : multiply a b = (a * b) % 211 := by
    unfold multiply prime
    exact Int.tmod_eq_emod (by positivity) (by norm_num)
  exact ⟨hadd, (add_range ha0 hb0).1, (add_range ha0 hb0).2,
    hsub, (subtract_range a b).1, (subtract_range a b).2,
    hmul, (multiply_range ha0 hb0).1, (multiply_range ha0 hb0).2⟩

/-- Claim C7 witness: the field operations at `a = 200`, `b = 100`. -/
theorem C7_witness :
    (0 : Int) ≤ 200 ∧ (200 : Int) < 211 ∧ (0 : Int) ≤ 100 ∧ (100 : Int) < 211 ∧
    (add 200 100 = (200 + 100) % 211 ∧ 0 ≤ add 200 100 ∧ add 200 100 < 211 ∧
      subtract 200 100 = (200 - 100) % 211 ∧ 0 ≤ subtract 200 100 ∧
      subtract 200 100 < 211 ∧
      multiply 200 100 = (200 * 100) % 211 ∧ 0 ≤ multiply 200 100 ∧
      multiply 200 100 < 211) :=
  ⟨by norm_num, by norm_num, by norm_num, by norm_num,
    C7_field_ops 200 100 (by norm_num) (by norm_num) (by norm_num) (by norm_num)⟩

/-- Claim C8: the empty secret does not round-trip. `splitString("", N, T,
pw)` still returns `N` tokens; with the correct password, two or more of
them make `reconstructString` fail with `NoInverse` (the degenerate parsed
bundle `[0]` forces an inverse of `0`), while exactly one of them yields
the one-character string `"\x00"` — never the empty string. -/
theorem C8_empty_secret (P : CryptoPlatform) (hP : GoodPlatform P)
    (rand : Nat → Nat → Int) (ivs : Nat → List Char)
    (N T : Nat) (_hT : 1 ≤ T) (_hTN : T ≤ N) (pw : List Char) :
    (splitString P rand ivs [] N T pw).length = N ∧
    (∀ sel : List Nat, 2 ≤ sel.length → (∀ i ∈ sel, i < N) →
      reconstructString P
        (sel.map (fun i => (splitString P rand ivs [] N T pw).getD i [])) pw =
        .error .noInverse) ∧
    (∀ i, i < N →
      reconstructString P [(splitString P rand ivs [] N T pw).getD i []] pw =
        .ok [Char.ofNat 0]) := by
  have htok : ∀ i, i < N →
      (splitString P rand ivs [] N T pw).getD i [] = encryptShare P (ivs i) [] pw := by
    intro i hi
    rw [splitString_empty]
    rw [getD_eq_of_lt _ _ _ (by simpa using hi), List.getElem_map, List.getElem_range]
  refine ⟨splitString_length P rand ivs [] N T pw, ?_, ?_⟩
  · intro sel h2 hmem
    rw [reconstructString_eq]
    have hdec : ∀ i ∈ sel,
        decryptShare P ((splitString P rand ivs [] N T pw).getD i []) pw =
          .ok [[some 0]] := by
      intro i hi
      rw [htok i (hmem i hi)]
      exact decrypt_empty_token P hP (ivs i) pw
    have hms := mapM_map_ok (fun share => decryptShare P share pw)
      (fun i => (splitString P rand ivs [] N T pw).getD i [])
      (fun _ => ([[some 0]] : List (List JsNum))) sel hdec
    rw [hms, except_bind_ok]
    rw [show sel.map (fun _ => ([[some 0]] : List (List JsNum))) =
      List.replicate sel.length [[some 0]] from List.map_const' sel _]
    exact reconstructBundles_replicate_degenerate sel.length h2
  · intro i hi
    rw [reconstructString_eq]
    rw [mapM_ok_of_forall _ (fun _ => ([[some 0]] : List (List JsNum))) _
      (fun t ht => by
        rcases List.mem_singleton.mp ht with rfl
        rw [htok i hi]
        exact decrypt_empty_token P hP (ivs i) pw)]
    rfl

/-- Claim C8 witness: the empty secret with `N = 3`, `T = 2` on the toy
platform — three tokens; two of them fail with `NoInverse`; one alone
yields `"\x00"`. -/
theorem C8_witness :
    (splitString toyPlatform (fun _ _ => 0) (fun _ => []) [] 3 2 []).length = 3 ∧
    reconstructString toyPlatform
      (([0, 1] : List Nat).map
        (fun i => (splitString toyPlatform (fun _ _ => 0) (fun _ => []) [] 3 2
          []).getD i [])) [] = .error .noInverse ∧
    reconstructString toyPlatform
      [(splitString toyPlatform (fun _ _ => 0) (fun _ => []) [] 3 2 []).getD 0 []]
      [] = .ok [Char.ofNat 0] := by
  obtain ⟨h1, h2, h3⟩ := C8_empty_secret toyPlatform toyPlatform_good
    (fun _ _ => 0) (fun _ => []) 3 2 (by norm_num) (by norm_num) []
  exact ⟨h1, h2 [0, 1] (by norm_num) (by decide), h3 0 (by norm_num)⟩

/-- Claim C9: reconstruction from an empty token list always fails — the
per-position loop reads `decryptedShares[0].length`, which throws a
`TypeError` on the empty array. -/
theorem C9_empty_tokens (P : CryptoPlatform) (pw : List Char) :
    reconstructString P [] pw = Except.error JsErr.typeError := rfl

/-- Claim C10: the first decrypted bundle dictates the output length —
whenever `reconstructString` succeeds on a nonempty token list, the
returned string is as long as the first bundle; entries of the other
bundles beyond that length are never consulted (truncating them does not
change the result); and a bundle shorter than the first is read out of
range (the undefined share raises a `TypeError` during interpolation)
rather than being rejected by any equal-length validation. -/
theorem C10_first_bundle :
    (∀ (P : CryptoPlatform) (toks : List (List Char)) (pw : List Char)
      (first : List (List JsNum)) (rest : List (List (List JsNum)))
      (s : List Char),
      toks.mapM (fun share => decryptShare P share pw) = .ok (first :: rest) →
      reconstructString P toks pw = .ok s → s.length = first.length) ∧
    (∀ (first : List (List JsNum)) (rest : List (List (List JsNum))),
      reconstructBundles (first :: rest) =
        reconstructBundles (first :: rest.map (fun b => b.take first.length))) ∧
    reconstructBundles [[[some 1, some 5]], []] = .error .typeError := by
  refine ⟨?_, reconstructBundles_truncate, rfl⟩
  intro P toks pw first rest s hm hr
  rw [reconstructString_eq, hm, except_bind_ok] at hr
  exact reconstructBundles_ok_length first rest s hr

/-- Claim C10 witness: the single token `":"` decrypts to the degenerate
one-pair bundle, reconstruction succeeds with a one-character string, and
the lengths agree. -/
theorem C10_witness :
    ([Char.ofNat 0] : List Char).length =
      ([[some (0 : Int)]] : List (List JsNum)).length :=
  C10_first_bundle.1 toyPlatform [[':']] [] [[some 0]] [] [Char.ofNat 0] rfl rfl

end SecureShards
